import Mathlib

/-!
# WoollySheep pattern-grid engine: a shallow embedding

This file embeds the core of the WoollySheep pattern editor in Lean 4 and
proves or refutes the specification claims about it.  The embedding follows
the JavaScript source:

* `src/js/fill.js`        — `normalizeColor`, `floodFill`
* `src/js/symmetry.js`    — `getMirroredColumn`, `getMirroredRow`,
                            `reflectPatternH`
* `src/js/state.js`       — the pixel map (modelled as a list of active
                            cells plus a colour function) and the design map
* `history.js`            — `pushToUndoStack`, `undo`, `redo`, `clearHistory`
* `jumperConfigs.js`      — `validateJumperConfig`, the per-config step of
                            `loadBuiltInConfigs`
* `canvas.js`             — the per-cell activity computation of `buildCanvas`
* `config.js`             — the grid constants
* `src/js/designPorting.js` — `isValidPosition`, `scaleDesign`

Conventions of the embedding:

* A DOM pixel's `style.backgroundColor` is an opaque string; an unset
  colour reads back as `""`.  JavaScript string equality is Lean `String`
  equality.
* `state.pixels` / `state.pixelMap` hold exactly the active pixels, in
  creation order; we model them as a `List Cell` (order) whose membership
  also plays the role of the `pixelMap` lookup, together with a total
  colour function `Cell → Color`.
* JavaScript `Number` arithmetic on the small integral quantities involved
  is exact; the only non-integral values are halves produced by `/ 2` and
  the scale ratios, which we compute in `ℚ` (exact in IEEE doubles at
  these magnitudes).  `Math.round` rounds half toward +∞.
* JavaScript objects used as string-keyed maps are modelled as association
  lists in insertion order with unique keys.
-/

set_option maxRecDepth 8000

namespace WoollySheep

/-- Colours are opaque strings (hex, `rgb(...)`, keywords, or `""` = unset). -/
abbrev Color := String

/-- A cell is an integer `(row, col)` pair. -/
abbrev Cell := Int × Int

/-! ## Grid constants (`config.js`) -/

def TOTAL_ROWS : Int := 138

def TOTAL_COLUMNS : Int := 107

def HISTORY_LIMIT : Nat := 50

/-! ## Colour normalisation (`fill.js`, `normalizeColor`) -/

/-- `normalizeColor` from `fill.js`: `!color`, `''` and `'transparent'`
map to `'white'`, as do the two literal white spellings; everything else
is returned unchanged.  (`!color` on a string is exactly `color === ''`.) -/
def normalizeColor (color : Color) : Color :=
  if color = "" ∨ color = "transparent" then "white"
  else if color = "white" ∨ color = "rgb(255, 255, 255)" then "white"
  else color

/-! ## Mirrored coordinates (`symmetry.js`) -/

/-- `getMirroredColumn` from `symmetry.js`. -/
def getMirroredColumn (col : Int) : Int := TOTAL_COLUMNS - col + 1

/-- `getMirroredRow` from `symmetry.js`. -/
def getMirroredRow (row : Int) : Int := TOTAL_ROWS - row + 1

/-! ## History (`history.js`)

The pixel store is `getPixelByCoords` composed with `style.backgroundColor`:
`pixels : Cell → Option Color`, `none` meaning "no pixel at these
coordinates".  `undo`/`redo` apply their colour writes inside a
`requestAnimationFrame` callback; callbacks run in FIFO order before
anything else observes the store, so sequential composition is preserved
and we model the application synchronously. -/

/-- One cell-colour delta, the JS shape
`{ rowIndex, colIndex, oldColor, newColor }` used both by fill/reflect
change lists and by history operations. -/
structure Delta where
  rowIndex : Int
  colIndex : Int
  oldColor : Color
  newColor : Color
deriving DecidableEq, Repr

/-- The cell a delta addresses. -/
def Delta.cell (d : Delta) : Cell := (d.rowIndex, d.colIndex)

/-- An undoable operation, the JS shape `{ changes }`. -/
structure Operation where
  changes : List Delta
deriving DecidableEq, Repr

/-- The mutable state `pushToUndoStack`/`undo`/`redo` touch: the pixel
store and the two history stacks.  Array `push`/`pop` operate at the END
of the list; `shift` removes the FIRST element. -/
structure HistState where
  pixels : Cell → Option Color
  undoStack : List Operation
  redoStack : List Operation

/-- `pushToUndoStack` from `history.js`: no-op for an empty change list;
otherwise push, evict the oldest (first) entry when over `HISTORY_LIMIT`,
and clear the redo stack. -/
def pushToUndoStack (operation : Operation) (s : HistState) : HistState :=
  if operation.changes.length = 0 then s
  else
    let u := s.undoStack ++ [operation]
    let u := if HISTORY_LIMIT < u.length then u.drop 1 else u
    { s with undoStack := u, redoStack := [] }

/-- The `operation.changes.forEach` loops of `undo`/`redo`: write
`sel change` to each change's cell, skipping cells with no pixel
(`if (pixel)`). -/
def applyChanges (sel : Delta → Color) (pixels : Cell → Option Color)
    (changes : List Delta) : Cell → Option Color :=
  changes.foldl
    (fun st ch =>
      if (st ch.cell).isSome then Function.update st ch.cell (some (sel ch)) else st)
    pixels

/-- `undo` from `history.js`. -/
def undo (s : HistState) : HistState :=
  match s.undoStack.getLast? with
  | none => s
  | some operation =>
      { pixels := applyChanges (fun ch => ch.oldColor) s.pixels operation.changes,
        undoStack := s.undoStack.dropLast,
        redoStack := s.redoStack ++ [operation] }

/-- `redo` from `history.js`. -/
def redo (s : HistState) : HistState :=
  match s.redoStack.getLast? with
  | none => s
  | some operation =>
      { pixels := applyChanges (fun ch => ch.newColor) s.pixels operation.changes,
        undoStack := s.undoStack ++ [operation],
        redoStack := s.redoStack.dropLast }

/-- `clearHistory` from `history.js`. -/
def clearHistory (s : HistState) : HistState :=
  { s with undoStack := [], redoStack := [] }

/-- The four history entry points, for stating reachability invariants. -/
inductive HistAct where
  | record (operation : Operation)
  | actUndo
  | actRedo
  | actClear
deriving Repr

/-- Execute one history entry point. -/
def histStep (a : HistAct) (s : HistState) : HistState :=
  match a with
  | .record op => pushToUndoStack op s
  | .actUndo => undo s
  | .actRedo => redo s
  | .actClear => clearHistory s

/-- Execute a sequence of history entry points. -/
def runHist (s : HistState) : List HistAct → HistState
  | [] => s
  | a :: rest => runHist (histStep a s) rest

/-- Concrete operation used as witness input. -/
def opW : Operation := ⟨[⟨1, 1, "white", "red"⟩]⟩

/-- Concrete store used as witness input: one pixel at `(1,1)`, white. -/
def storeW : Cell → Option Color :=
  fun p => if p = ((1 : Int), (1 : Int)) then some "white" else none

/-- Concrete duplicate-cell operation used as counterexample input:
two deltas for cell `(1,1)` with different new colours. -/
def opDup : Operation := ⟨[⟨1, 1, "white", "red"⟩, ⟨1, 1, "white", "blue"⟩]⟩

/-! ## Shape geometry (`designPorting.js` / `canvas.js`)

`rowsConfig` entries are JSON records; numeric fields are integers and a
missing field is `none`.  JavaScript reads of a missing field yield
`undefined`, which is falsy in `if (rc.step)` and `rc.padding || 0` and
poisons comparisons as `NaN`; each `match`/`getD` below reproduces the
corresponding use site.  The halves produced by `/ 2` are computed in `ℚ`
(exact in IEEE doubles at these magnitudes). -/

/-- One `rowsConfig` entry.  `stop` models the JSON field `end`. -/
structure RowBand where
  start : Option Int := none
  stop : Option Int := none
  columns : Option Int := none
  padding : Option Int := none
  startColumns : Option Int := none
  step : Option Int := none
deriving DecidableEq, Repr

/-- `row >= rc.start && row <= rc.end`; false when either bound is
missing (`NaN` comparisons are false). -/
def bandMatches (row : Int) (rc : RowBand) : Bool :=
  match rc.start, rc.stop with
  | some s, some e => decide (s ≤ row ∧ row ≤ e)
  | _, _ => false

/-- Dimensions of one configuration size as `getConfigDimensions` returns
them. -/
structure Dims where
  totalRows : Int
  maxColumns : Int
  rowsConfig : List RowBand
deriving DecidableEq, Repr

/-- The per-band activity test shared by `isValidPosition`
(designPorting.js) and the row loop of `buildCanvas` (canvas.js): a
truthy (non-zero) `step` selects the tapering formula
`padding = (maxColumns - (startColumns + (row - start) * step)) / 2`,
otherwise `padding = rc.padding || 0`; the active range is
`col > padding && col <= maxColumns - padding`.  A missing `startColumns`
or `start` in the tapering branch makes both comparisons false (`NaN`). -/
def bandActive (maxColumns row col : Int) (rc : RowBand) : Bool :=
  if rc.step.getD 0 ≠ 0 then
    match rc.startColumns, rc.start with
    | some sc, some st =>
        let columns := sc + (row - st) * rc.step.getD 0
        let padding : ℚ := ((maxColumns - columns : Int) : ℚ) / 2
        decide (padding < (col : ℚ) ∧ (col : ℚ) ≤ (maxColumns : ℚ) - padding)
    | _, _ => false
  else
    let padding := rc.padding.getD 0
    decide (padding < col ∧ col ≤ maxColumns - padding)

/-- `isValidPosition` from `designPorting.js`: bounds checks, then the
first band whose `[start, end]` range contains `row` decides activity;
`false` when no band matches. -/
def isValidPosition (row col : Int) (dims : Dims) : Bool :=
  if row < 1 ∨ row > dims.totalRows then false
  else if col < 1 ∨ col > dims.maxColumns then false
  else
    match dims.rowsConfig.find? (fun rc => bandMatches row rc) with
    | some rc => bandActive dims.maxColumns row col rc
    | none => false

/-- The `isActive` computation inside the row loop of `buildCanvas`
(canvas.js): `columns`/`padding` start at `0` and the first matching band
overwrites them, so a row matched by NO band keeps `padding = 0` and every
column `1..maxColumns` is created active.  (`buildCanvas` only evaluates
this for `1 ≤ row ≤ totalRows`, `1 ≤ col ≤ maxColumns`.) -/
def buildCanvasIsActive (dims : Dims) (row col : Int) : Bool :=
  match dims.rowsConfig.find? (fun rc => bandMatches row rc) with
  | some rc => bandActive dims.maxColumns row col rc
  | none => decide ((0 : Int) < col ∧ col ≤ dims.maxColumns - 0)

/-- Modelled from the claim's words (spec §4.1): for the band containing
`row`, `padding = (maxColumns − (band.startColumns + (row − band.start) *
band.step)) / 2` for a tapering band, and the band's fixed padding
(defaulting to 0) otherwise.  Used only to compare the claim's formula
against `isValidPosition`. -/
def paddingSpec (maxColumns row : Int) (rc : RowBand) : ℚ :=
  if rc.step.getD 0 ≠ 0 then
    ((maxColumns - (rc.startColumns.getD 0 + (row - rc.start.getD 0) * rc.step.getD 0) : Int) : ℚ) / 2
  else (rc.padding.getD 0 : ℚ)

/-! ## Design porting (`designPorting.js`)

A design is a JS object keyed by `"{row}-{col}"`; we model it as an
association list from the `(row, col)` pair, in insertion order, with
unique keys.  `portedDesign[newKey]` / `portedDesign[newKey] = color`
are `objGet` / `objSet`; the `!portedDesign[newKey]` truthiness test is
"missing or empty string". -/

/-- JS-object property read. -/
def objGet (obj : List (Cell × Color)) (k : Cell) : Option Color :=
  (obj.find? (fun e => decide (e.1 = k))).map (fun e => e.2)

/-- JS-object property write: overwrite in place when the key exists,
otherwise append (insertion order). -/
def objSet (obj : List (Cell × Color)) (k : Cell) (v : Color) : List (Cell × Color) :=
  if (obj.find? (fun e => decide (e.1 = k))).isSome
  then obj.map (fun e => if e.1 = k then (k, v) else e)
  else obj ++ [(k, v)]

/-- JS `Math.round`: round half toward +∞. -/
def jsRound (q : ℚ) : Int := Int.floor (q + 1 / 2)

/-- The body of the `scaleDesign` loop: scale one key by the
`target/source` ratios, keep it only if valid in the target, first
writer wins (`if (!portedDesign[newKey])`, i.e. write when the slot is
missing or holds the falsy empty string). -/
def scaleStep (targetDims : Dims) (scaleX scaleY : ℚ)
    (ported : List (Cell × Color)) (e : Cell × Color) : List (Cell × Color) :=
  let newRow := jsRound ((e.1.1 : ℚ) * scaleY)
  let newCol := jsRound ((e.1.2 : ℚ) * scaleX)
  if isValidPosition newRow newCol targetDims then
    match objGet ported (newRow, newCol) with
    | some c => if c = "" then objSet ported (newRow, newCol) e.2 else ported
    | none => objSet ported (newRow, newCol) e.2
  else ported

/-- `scaleDesign` from `designPorting.js`. -/
def scaleDesign (design : List (Cell × Color)) (sourceDims targetDims : Dims) :
    List (Cell × Color) :=
  design.foldl
    (scaleStep targetDims ((targetDims.maxColumns : ℚ) / (sourceDims.maxColumns : ℚ))
      ((targetDims.totalRows : ℚ) / (sourceDims.totalRows : ℚ)))
    []

/-- Concrete geometry used as witness input: 2 rows, 3 columns, one fixed
band covering both rows with no padding. -/
def dimsW : Dims := ⟨2, 3, [⟨some 1, some 2, some 3, none, none, none⟩]⟩

/-- Concrete geometry used as counterexample input: its single band covers
only row 1, leaving row 2 matched by no band. -/
def dimsGap : Dims := ⟨2, 3, [⟨some 1, some 1, some 3, none, none, none⟩]⟩

/-- Concrete design used as witness input (all keys active in `dimsW`). -/
def designW : List (Cell × Color) := [((1, 1), "red"), ((2, 3), "blue")]

/-! ## One-shot reflection (`symmetry.js`) -/

/-- The source filter of `reflectPatternH`/`reflectPatternV`:
`color && color !== 'white' && color !== 'rgb(255, 255, 255)' && color !== ''`
(`!color` on a string is `color === ''`). -/
def isSourceColor (c : Color) : Bool :=
  decide (c ≠ "" ∧ c ≠ "white" ∧ c ≠ "rgb(255, 255, 255)")

/-- `reflectPatternH` from `symmetry.js`, instrumented.  `cells` is
`state.pixels` in creation order (also the key set of `pixelMap`; pixels
reachable through `pixelMap` are never `non-selectable`); `colors` is
each pixel's `style.backgroundColor` when the call starts.  The scan
reads the LIVE store (first component of the accumulator) and writes each
mirror cell in place as it goes.  The extra `Bool` records whether some
iteration's source read returned a colour differing from the
pre-operation snapshot `colors`, i.e. a value already overwritten by an
earlier delta of the same operation. -/
def reflectPatternHRun (cells : List Cell) (colors : Cell → Color) :
    ((Cell → Color) × List Delta) × Bool :=
  cells.foldl
    (fun acc pc =>
      let live := acc.1.1
      let color := live pc
      let flag := acc.2 || decide (color ≠ colors pc)
      if isSourceColor color then
        let mc := getMirroredColumn pc.2
        if mc ≠ pc.2 then
          if (pc.1, mc) ∈ cells then
            let oldColor := if live (pc.1, mc) = "" then "white" else live (pc.1, mc)
            if oldColor ≠ color then
              ((Function.update live (pc.1, mc) color,
                acc.1.2 ++ [⟨pc.1, mc, oldColor, color⟩]), flag)
            else ((live, acc.1.2), flag)
          else ((live, acc.1.2), flag)
        else ((live, acc.1.2), flag)
      else ((live, acc.1.2), flag))
    ((colors, []), false)

/-- `reflectPatternH`: the final store and change list. -/
def reflectPatternH (cells : List Cell) (colors : Cell → Color) :
    (Cell → Color) × List Delta :=
  (reflectPatternHRun cells colors).1

/-- Modelled from the spec's stale-source snapshot requirement (§4.4):
the same scan, but every source and old colour is read from the unmutated
pre-operation store `colors` (a read-only view taken before writing).
Used only to exhibit how `reflectPatternH` diverges from it. -/
def reflectSnapshotH (cells : List Cell) (colors : Cell → Color) :
    (Cell → Color) × List Delta :=
  cells.foldl
    (fun acc pc =>
      let color := colors pc
      if isSourceColor color then
        let mc := getMirroredColumn pc.2
        if mc ≠ pc.2 then
          if (pc.1, mc) ∈ cells then
            let oldColor := if colors (pc.1, mc) = "" then "white" else colors (pc.1, mc)
            if oldColor ≠ color then
              (Function.update acc.1 (pc.1, mc) color, acc.2 ++ [⟨pc.1, mc, oldColor, color⟩])
            else acc
          else acc
        else acc
      else acc)
    (colors, [])

/-- Concrete failing input for C1: two active pixels mirroring each other
on the standard grid, coloured differently. -/
def reflectCells : List Cell := [(1, 1), (1, 107)]

/-- Colours for `reflectCells`: `(1,1)` red, `(1,107)` blue. -/
def reflectColors : Cell → Color :=
  fun p =>
    if p = ((1 : Int), (1 : Int)) then "red"
    else if p = ((1 : Int), (107 : Int)) then "blue"
    else ""

/-! ## Configuration validation and loading (`jumperConfigs.js`)

Validation error messages are strings built with template literals; we
model them as a structured type carrying the same data. -/

/-- The validation errors `validateJumperConfig` can push, one constructor
per `errors.push` site. -/
inductive VErr where
  | missingId
  | missingName
  | missingType
  | missingSizes
  | invalidSizeKey (size : String)
  | missingTotalRows (size : String)
  | missingMaxColumns (size : String)
  | missingRowsConfig (size : String)
  | rowsEntryMissingStartEnd (size : String)
  | rowNotCovered (size : String) (row : Int)
deriving DecidableEq, Repr

/-- One size entry of a configuration descriptor.  `totalRows` and
`maxColumns` are numbers whose falsy values (missing, `0`) coincide in
every use site, so a missing field is modelled as `0`; `rowsConfig`
distinguishes missing (`none`) from present. -/
structure SizeConfig where
  totalRows : Int := 0
  maxColumns : Int := 0
  rowsConfig : Option (List RowBand) := none
deriving DecidableEq, Repr

/-- A configuration descriptor.  String fields are falsy exactly when
empty (`type'` models the JSON field `type`, which Lean's record syntax
reserves).  `sizes` is a JS object: an association list in insertion
order. -/
structure JumperConfig where
  id : String := ""
  name : String := ""
  type' : String := ""
  sizes : Option (List (String × SizeConfig)) := none
deriving DecidableEq, Repr

/-- `const validSizes = ['XS', 'S', 'M', 'L', 'XL']`. -/
def validSizes : List String := ["XS", "S", "M", "L", "XL"]

/-- The per-size part of `validateJumperConfig` (the loop body for a
valid size key): missing-field errors, then one
`rowsEntryMissingStartEnd` per band lacking numeric `start`/`end`, then
the first row in `1..totalRows` not covered by any well-formed band
(`break` after the first).  A row is covered iff some band with both
bounds present contains it — exactly the `coveredRows` set. -/
def validateSize (size : String) (sc : SizeConfig) : List VErr :=
  (if sc.totalRows = 0 then [VErr.missingTotalRows size] else []) ++
  (if sc.maxColumns = 0 then [VErr.missingMaxColumns size] else []) ++
  (if sc.rowsConfig.isNone then [VErr.missingRowsConfig size] else []) ++
  (match sc.rowsConfig with
    | some bands =>
        if sc.totalRows ≠ 0 then
          (bands.filter (fun rc => rc.start.isNone || rc.stop.isNone)).map
            (fun _ => VErr.rowsEntryMissingStartEnd size) ++
          (match (List.range sc.totalRows.toNat).find?
              (fun (k : Nat) => !(bands.any (fun rc => bandMatches ((k : Int) + 1) rc))) with
            | some k => [VErr.rowNotCovered size ((k : Int) + 1)]
            | none => [])
        else []
    | none => [])

/-- The `errors` array `validateJumperConfig` accumulates: top-level
field checks, then each size entry in order (an invalid size key is
reported and skipped). -/
def validateErrors (config : JumperConfig) : List VErr :=
  (if config.id = "" then [VErr.missingId] else []) ++
  (if config.name = "" then [VErr.missingName] else []) ++
  (if config.type' = "" then [VErr.missingType] else []) ++
  (if config.sizes.isNone then [VErr.missingSizes] else []) ++
  (match config.sizes with
    | some sizes =>
        sizes.foldl
          (fun acc p =>
            acc ++ (if p.1 ∈ validSizes then validateSize p.1 p.2
                    else [VErr.invalidSizeKey p.1]))
          []
    | none => [])

/-- `validateJumperConfig` from `jumperConfigs.js`: returns
`{ valid: errors.length === 0, errors }`. -/
def validateJumperConfig (config : JumperConfig) : Bool × List VErr :=
  ((validateErrors config).isEmpty, validateErrors config)

/-- `state.jumperConfig.configs.set(configId, config)`. -/
def setConfig (configs : List (String × JumperConfig)) (k : String) (v : JumperConfig) :
    List (String × JumperConfig) :=
  if (configs.find? (fun e => decide (e.1 = k))).isSome
  then configs.map (fun e => if e.1 = k then (k, v) else e)
  else configs ++ [(k, v)]

/-- `configs.get(configId)`. -/
def getConfig (configs : List (String × JumperConfig)) (k : String) : Option JumperConfig :=
  (configs.find? (fun e => decide (e.1 = k))).map (fun e => e.2)

/-- The per-config body of `loadBuiltInConfigs`: a failed fetch/parse is
caught and stores nothing; a fetched config is validated, the validation
result is only logged (`console.warn`) when invalid, and the config is
stored REGARDLESS of validity.  Returns the new config map and the logged
warnings. -/
def loadBuiltInConfigStep (configs : List (String × JumperConfig)) (configId : String)
    (fetched : Option JumperConfig) :
    List (String × JumperConfig) × List (String × List VErr) :=
  match fetched with
  | none => (configs, [])
  | some config =>
      let validation := validateJumperConfig config
      (setConfig configs configId config,
        if validation.1 then [] else [(configId, validation.2)])

/-- Band list covering only row 1. -/
def gapBands : List RowBand := [⟨some 1, some 1, some 3, none, none, none⟩]

/-- A size declaring 2 rows whose bands cover only row 1. -/
def gapSizeM : SizeConfig := { totalRows := 2, maxColumns := 3, rowsConfig := some gapBands }

/-- Concrete gapped descriptor: size `M` declares 2 rows but its single
band covers only row 1. -/
def gapConfig : JumperConfig :=
  { id := "gap", name := "Gap", type' := "test", sizes := some [("M", gapSizeM)] }

/-! ## Flood fill (`fill.js`)

`floodFill` reads the store through `getPixelByCoords` (the pixel map:
exactly the active cells) and bounds its search with the LEGACY constants
`TOTAL_ROWS`/`TOTAL_COLUMNS` imported from `config.js`, not the active
configuration's dimensions.  The `visited` set of string keys `"r,c"` is
a `Finset Cell` (the key encoding is injective).  The JS `while` loop is
fuel-indexed; `FUEL` exceeds the loop's iteration bound (proved below),
so the fuel never runs out. -/

/-- The neighbour bounds test:
`newRow >= 1 && newRow <= TOTAL_ROWS && newCol >= 1 && newCol <= TOTAL_COLUMNS`. -/
def inGrid (c : Cell) : Bool :=
  decide (1 ≤ c.1 ∧ c.1 ≤ TOTAL_ROWS ∧ 1 ≤ c.2 ∧ c.2 ≤ TOTAL_COLUMNS)

/-- The four `directions` `[[-1,0],[1,0],[0,-1],[0,1]]` applied to a cell,
in source order. -/
def neighborsOf (c : Cell) : List Cell :=
  [(c.1 - 1, c.2), (c.1 + 1, c.2), (c.1, c.2 - 1), (c.1, c.2 + 1)]

/-- The mutable state of the `floodFill` loop. -/
structure FillState where
  colors : Cell → Color
  visited : Finset Cell
  queue : List Cell
  changes : List Delta

/-- One iteration of the `while (queue.length > 0)` body, for popped cell
`c` and remaining queue `rest`: skip if visited; mark visited; skip if no
pixel (`c ∉ cells`) or the (normalised) colour does not match the target;
otherwise record the delta (`oldColor` is
`pixel.style.backgroundColor || 'white'`), overwrite the pixel with the
raw fill colour, and push unvisited in-bounds neighbours. -/
def floodStep (cells : List Cell) (target fillColor : Color) (c : Cell) (rest : List Cell)
    (s : FillState) : FillState :=
  if c ∈ s.visited then { s with queue := rest }
  else
    let visited' := insert c s.visited
    if c ∈ cells then
      if normalizeColor (s.colors c) = target then
        { colors := Function.update s.colors c fillColor,
          visited := visited',
          queue := rest ++ (neighborsOf c).filter (fun n => decide (n ∉ visited') && inGrid n),
          changes := s.changes ++
            [⟨c.1, c.2, if s.colors c = "" then "white" else s.colors c, fillColor⟩] }
      else { s with visited := visited', queue := rest }
    else { s with visited := visited', queue := rest }

/-- The `floodFill` loop, fuel-indexed. -/
def floodLoop (cells : List Cell) (target fillColor : Color) : Nat → FillState → FillState
  | 0, s => s
  | fuel + 1, s =>
      match s.queue with
      | [] => s
      | c :: rest => floodLoop cells target fillColor fuel (floodStep cells target fillColor c rest s)

/-- Fuel that provably outlasts the loop (4 units per candidate cell plus
the initial queue). -/
def FUEL : Nat := 4 * (TOTAL_ROWS.toNat * TOTAL_COLUMNS.toNat + 1) + 2

/-- `floodFill` from `fill.js`: returns the change list and (since the JS
mutates the DOM in place) the final store. -/
def floodFill (cells : List Cell) (colors : Cell → Color) (start : Cell) (fillColor : Color) :
    List Delta × (Cell → Color) :=
  let targetColor := normalizeColor (colors start)
  let normalizedFillColor := normalizeColor fillColor
  if targetColor = normalizedFillColor then ([], colors)
  else
    let final := floodLoop cells targetColor fillColor FUEL ⟨colors, ∅, [start], []⟩
    (final.changes, final.colors)

/-- The legacy-rectangle cells as a finset. -/
def gridCells : Finset Cell :=
  Finset.Icc 1 TOTAL_ROWS ×ˢ Finset.Icc 1 TOTAL_COLUMNS

/-- Every cell the loop can ever enqueue: the rectangle plus the start. -/
def candidateCells (start : Cell) : Finset Cell := insert start gridCells

/-- Loop measure: strictly decreases at every iteration. -/
def fuelMeasure (start : Cell) (s : FillState) : Nat :=
  4 * ((candidateCells start \ s.visited).card) + s.queue.length

/-- 4-connected reachability from `start` through cells that are active
(in `cells`) and whose colour in `colors` normalises to `target` — the
region the claim says `floodFill` recolours. -/
inductive Reaches (cells : List Cell) (colors : Cell → Color) (target : Color) (start : Cell) :
    Cell → Prop where
  | base : start ∈ cells → normalizeColor (colors start) = target →
      Reaches cells colors target start start
  | step {p q : Cell} : Reaches cells colors target start p → q ∈ neighborsOf p →
      q ∈ cells → normalizeColor (colors q) = target →
      Reaches cells colors target start q

/-- The loop invariant of `floodLoop`: `init` is the store at call time.
A cell is *changed* iff it is visited, active, and target-coloured in
`init`. -/
structure FillInv (cells : List Cell) (init : Cell → Color) (target fillColor : Color)
    (start : Cell) (s : FillState) : Prop where
  changes_iff : ∀ p : Cell, (∃ d ∈ s.changes, d.cell = p) ↔
      p ∈ s.visited ∧ p ∈ cells ∧ normalizeColor (init p) = target
  colors_changed : ∀ p : Cell,
      p ∈ s.visited ∧ p ∈ cells ∧ normalizeColor (init p) = target → s.colors p = fillColor
  colors_same : ∀ p : Cell,
      ¬(p ∈ s.visited ∧ p ∈ cells ∧ normalizeColor (init p) = target) → s.colors p = init p
  nodup : (s.changes.map Delta.cell).Nodup
  delta_fields : ∀ d ∈ s.changes,
      d.oldColor = (if init d.cell = "" then "white" else init d.cell) ∧ d.newColor = fillColor
  queue_cand : ∀ q ∈ s.queue, q ∈ candidateCells start
  start_mem : start ∈ s.visited ∨ start ∈ s.queue
  closure : ∀ p : Cell, p ∈ s.visited ∧ p ∈ cells ∧ normalizeColor (init p) = target →
      ∀ n ∈ neighborsOf p, inGrid n = true → (n ∈ s.visited ∨ n ∈ s.queue)
  sound : ∀ p : Cell, p ∈ s.visited ∧ p ∈ cells ∧ normalizeColor (init p) = target →
      Reaches cells init target start p
  queue_src : ∀ q ∈ s.queue, q = start ∨ ∃ p : Cell,
      p ∈ s.visited ∧ p ∈ cells ∧ normalizeColor (init p) = target ∧ q ∈ neighborsOf p

/-- Applying a list of deltas' `oldColor`s to a store (the restoration the
claim describes; no existence guard, the delta cells are pixels). -/
def applyOldList (l : List Delta) (colors : Cell → Color) : Cell → Color :=
  l.foldl (fun st d => Function.update st d.cell d.oldColor) colors

/-- Concrete pixel set for the fill witness: two adjacent active cells. -/
def fillCellsW : List Cell := [(1, 1), (1, 2)]

/-- Colours for `fillCellsW`: `(1,1)` red, everything else unset. -/
def fillColorsW : Cell → Color :=
  fun p => if p = ((1 : Int), (1 : Int)) then "red" else ""

/-- Pixel set for the C3 counterexample: active cells at rows 138 and 139
(a custom configuration taller than the legacy 138-row grid). -/
def fillCellsTall : List Cell := [(138, 5), (139, 5)]

/-- All `fillCellsTall` pixels unset (background). -/
def fillColorsTall : Cell → Color := fun _ => ""

/-! ### C8 -/

/-- **C8** (confirmed).  The mirrored-coordinate maps are involutions on ℤ:
`getMirroredColumn (getMirroredColumn col) = col` and
`getMirroredRow (getMirroredRow row) = row`; consequently each map is a
bijection from `[1, TOTAL_COLUMNS]` (resp. `[1, TOTAL_ROWS]`) onto itself. -/
theorem mirror_involution_bijection :
    (∀ col : Int, getMirroredColumn (getMirroredColumn col) = col) ∧
    (∀ row : Int, getMirroredRow (getMirroredRow row) = row) ∧
    Set.BijOn getMirroredColumn (Set.Icc 1 TOTAL_COLUMNS) (Set.Icc 1 TOTAL_COLUMNS) ∧
    Set.BijOn getMirroredRow (Set.Icc 1 TOTAL_ROWS) (Set.Icc 1 TOTAL_ROWS) := by
  refine ⟨fun col => ?_, fun row => ?_, ?_, ?_⟩
  · simp [getMirroredColumn]; omega
  · simp [getMirroredRow]; omega
  · refine ⟨fun x hx => ?_, fun x hx y hy hxy => ?_, fun y hy => ?_⟩
    · simp only [getMirroredColumn, Set.mem_Icc, TOTAL_COLUMNS] at *
      omega
    · simp only [getMirroredColumn] at hxy
      omega
    · refine ⟨getMirroredColumn y, ?_, ?_⟩
      · simp only [getMirroredColumn, Set.mem_Icc, TOTAL_COLUMNS] at *
        omega
      · simp only [getMirroredColumn]; omega
  · refine ⟨fun x hx => ?_, fun x hx y hy hxy => ?_, fun y hy => ?_⟩
    · simp only [getMirroredRow, Set.mem_Icc, TOTAL_ROWS] at *
      omega
    · simp only [getMirroredRow] at hxy
      omega
    · refine ⟨getMirroredRow y, ?_, ?_⟩
      · simp only [getMirroredRow, Set.mem_Icc, TOTAL_ROWS] at *
        omega
      · simp only [getMirroredRow]; omega

/-! ### Geometry lemmas -/

theorem isValidPosition_eq_false_of_out_of_bounds (dims : Dims) (row col : Int)
    (h : row < 1 ∨ dims.totalRows < row ∨ col < 1 ∨ dims.maxColumns < col) :
    isValidPosition row col dims = false := by
  unfold isValidPosition
  by_cases h1 : row < 1 ∨ row > dims.totalRows
  · rw [if_pos h1]
  · rw [if_neg h1]
    have h2 : col < 1 ∨ col > dims.maxColumns := by
      rcases h with h | h | h | h
      · exact absurd (Or.inl h) h1
      · exact absurd (Or.inr h) h1
      · exact Or.inl h
      · exact Or.inr h
    rw [if_pos h2]

theorem isValidPosition_bounds (row col : Int) (dims : Dims)
    (h : isValidPosition row col dims = true) :
    1 ≤ row ∧ row ≤ dims.totalRows ∧ 1 ≤ col ∧ col ≤ dims.maxColumns := by
  unfold isValidPosition at h
  by_cases h1 : row < 1 ∨ row > dims.totalRows
  · rw [if_pos h1] at h; cases h
  · rw [if_neg h1] at h
    by_cases h2 : col < 1 ∨ col > dims.maxColumns
    · rw [if_pos h2] at h; cases h
    · push_neg at h1 h2
      exact ⟨by omega, by omega, by omega, by omega⟩

theorem isValidPosition_of_in_bounds (dims : Dims) (row col : Int)
    (h1 : ¬(row < 1 ∨ row > dims.totalRows)) (h2 : ¬(col < 1 ∨ col > dims.maxColumns)) :
    isValidPosition row col dims =
      match dims.rowsConfig.find? (fun rc => bandMatches row rc) with
      | some rc => bandActive dims.maxColumns row col rc
      | none => false := by
  unfold isValidPosition
  rw [if_neg h1, if_neg h2]

/-! ### C7 -/

/-- **C7 amended** (corrected).  For every geometry whose tapering bands
carry a `startColumns` field, and every in-bounds `(row, col)`: when some
band contains `row` (first match), `isValidPosition` holds iff
`padding < col ≤ maxColumns − padding` with the padding computed per the
claim's formula, and the `buildCanvas` activity computation agrees with
`isValidPosition`; out-of-bounds cells are never valid; rows matched by no
band are never valid for `isValidPosition`, BUT `buildCanvas` leaves
`padding = 0` for such rows and creates every column of the row as an
active pixel — the claim's "rows matched by no band are never active"
fails for `buildCanvas` (see the counterexample). -/
theorem active_cell_predicate (dims : Dims) (row col : Int)
    (hwf : ∀ rc ∈ dims.rowsConfig, rc.step.getD 0 ≠ 0 → rc.startColumns.isSome) :
    ((row < 1 ∨ dims.totalRows < row ∨ col < 1 ∨ dims.maxColumns < col) →
        isValidPosition row col dims = false) ∧
    (1 ≤ row → row ≤ dims.totalRows → 1 ≤ col → col ≤ dims.maxColumns →
      (∀ rc, dims.rowsConfig.find? (fun b => bandMatches row b) = some rc →
        ((isValidPosition row col dims = true ↔
            paddingSpec dims.maxColumns row rc < (col : ℚ) ∧
            (col : ℚ) ≤ (dims.maxColumns : ℚ) - paddingSpec dims.maxColumns row rc) ∧
          buildCanvasIsActive dims row col = isValidPosition row col dims)) ∧
      (dims.rowsConfig.find? (fun b => bandMatches row b) = none →
        isValidPosition row col dims = false ∧ buildCanvasIsActive dims row col = true)) := by
  refine ⟨isValidPosition_eq_false_of_out_of_bounds dims row col, ?_⟩
  intro hr1 hr2 hc1 hc2
  have h1 : ¬(row < 1 ∨ row > dims.totalRows) := by omega
  have h2 : ¬(col < 1 ∨ col > dims.maxColumns) := by omega
  constructor
  · intro rc hfind
    have hIVP : isValidPosition row col dims = bandActive dims.maxColumns row col rc := by
      rw [isValidPosition_of_in_bounds dims row col h1 h2, hfind]
    have hBC : buildCanvasIsActive dims row col = bandActive dims.maxColumns row col rc := by
      unfold buildCanvasIsActive
      rw [hfind]
    refine ⟨?_, by rw [hBC, hIVP]⟩
    rw [hIVP]
    have hmatch : bandMatches row rc = true := List.find?_some hfind
    have hmem : rc ∈ dims.rowsConfig := List.mem_of_find?_eq_some hfind
    unfold bandActive paddingSpec
    by_cases hstep : rc.step.getD 0 ≠ 0
    · obtain ⟨sc, hsc⟩ := Option.isSome_iff_exists.mp (hwf rc hmem hstep)
      obtain ⟨st, et, hst, het, _⟩ : ∃ st et, rc.start = some st ∧ rc.stop = some et ∧
          (st ≤ row ∧ row ≤ et) := by
        unfold bandMatches at hmatch
        match hs : rc.start, he : rc.stop with
        | some s, some e =>
            rw [hs, he] at hmatch
            exact ⟨s, e, rfl, rfl, by simpa using hmatch⟩
        | some s, none => rw [hs, he] at hmatch; cases hmatch
        | none, some e => rw [hs, he] at hmatch; cases hmatch
        | none, none => rw [hs, he] at hmatch; cases hmatch
      rw [if_pos hstep, if_pos hstep, hsc, hst]
      simp only [Option.getD_some, decide_eq_true_eq]
    · rw [if_neg hstep, if_neg hstep]
      simp only [decide_eq_true_eq]
      constructor
      · rintro ⟨ha, hb⟩
        refine ⟨by exact_mod_cast ha, ?_⟩
        have : ((col : Int) : ℚ) ≤ ((dims.maxColumns - rc.padding.getD 0 : Int) : ℚ) := by
          exact_mod_cast hb
        push_cast at this
        linarith
      · rintro ⟨ha, hb⟩
        refine ⟨by exact_mod_cast ha, ?_⟩
        have : ((col : Int) : ℚ) ≤ ((dims.maxColumns - rc.padding.getD 0 : Int) : ℚ) := by
          push_cast
          linarith
        exact_mod_cast this
  · intro hfind
    constructor
    · rw [isValidPosition_of_in_bounds dims row col h1 h2, hfind]
    · unfold buildCanvasIsActive
      rw [hfind]
      simp only [decide_eq_true_eq]
      omega

/-- Witness for C7 (amended): the predicate evaluated on the concrete
geometry `dimsW` at the in-bounds cell `(1, 1)` whose row is covered. -/
theorem active_cell_predicate_witness :
    ((∀ rc ∈ dimsW.rowsConfig, rc.step.getD 0 ≠ 0 → rc.startColumns.isSome) ∧
      dimsW.rowsConfig.find? (fun b => bandMatches 1 b) =
        some ⟨some 1, some 2, some 3, none, none, none⟩) ∧
    (isValidPosition 1 1 dimsW = true ↔
      paddingSpec dimsW.maxColumns 1 ⟨some 1, some 2, some 3, none, none, none⟩ < (1 : ℚ) ∧
      (1 : ℚ) ≤ (dimsW.maxColumns : ℚ) -
        paddingSpec dimsW.maxColumns 1 ⟨some 1, some 2, some 3, none, none, none⟩) ∧
    buildCanvasIsActive dimsW 1 1 = isValidPosition 1 1 dimsW :=
  ⟨⟨by decide, by rfl⟩,
   ((active_cell_predicate dimsW 1 1 (by decide)).2 (by decide) (by decide) (by decide)
      (by decide)).1 ⟨some 1, some 2, some 3, none, none, none⟩ (by rfl)⟩

/-- Counterexample for C7 as stated: in `dimsGap` row 2 is matched by no
band, yet `buildCanvas` computes `padding = 0` for it and creates cell
`(2, 1)` as active, contradicting "rows matched by no band are never
active" (while `isValidPosition` indeed rejects it). -/
theorem active_cell_predicate_claim_false :
    dimsGap.rowsConfig.find? (fun b => bandMatches 2 b) = none ∧
    isValidPosition 2 1 dimsGap = false ∧
    buildCanvasIsActive dimsGap 2 1 = true := by
  refine ⟨by rfl, by rfl, by rfl⟩

/-! ### C6 -/

theorem objGet_eq_none (obj : List (Cell × Color)) (k : Cell) (hk : k ∉ obj.map Prod.fst) :
    objGet obj k = none := by
  unfold objGet
  rw [List.find?_eq_none.mpr]
  · rfl
  · intro e he
    simp only [decide_eq_true_eq]
    intro h
    exact hk (h ▸ List.mem_map_of_mem Prod.fst he)

theorem objSet_append (obj : List (Cell × Color)) (k : Cell) (v : Color)
    (hk : k ∉ obj.map Prod.fst) :
    objSet obj k v = obj ++ [(k, v)] := by
  unfold objSet
  rw [if_neg]
  intro hsome
  obtain ⟨e, hfind⟩ := Option.isSome_iff_exists.mp hsome
  have := List.find?_some hfind
  simp only [decide_eq_true_eq] at this
  exact hk (this ▸ List.mem_map_of_mem Prod.fst (List.mem_of_find?_eq_some hfind))

theorem jsRound_intCast (n : Int) : jsRound (n : ℚ) = n := by
  unfold jsRound
  rw [Int.floor_int_add]
  norm_num

/-- **C6** (confirmed).  Porting a design whose keys are all active cells
under a geometry with the `scale` strategy from that geometry to the
identical geometry is the identity: every cell maps to itself, nothing is
dropped, no colour changes.  (The `Nodup` hypothesis models that a JS
object has unique keys.) -/
theorem scale_port_identity (design : List (Cell × Color)) (dims : Dims)
    (hactive : ∀ e ∈ design, isValidPosition e.1.1 e.1.2 dims = true)
    (hnodup : (design.map Prod.fst).Nodup) :
    scaleDesign design dims dims = design := by
  match design with
  | [] => rfl
  | e0 :: rest0 =>
    obtain ⟨hr1, hr2, hc1, hc2⟩ := isValidPosition_bounds _ _ _ (hactive e0 (by simp))
    have hcolsQ : (dims.maxColumns : ℚ) ≠ 0 := by
      exact_mod_cast (by omega : dims.maxColumns ≠ 0)
    have hrowsQ : (dims.totalRows : ℚ) ≠ 0 := by
      exact_mod_cast (by omega : dims.totalRows ≠ 0)
    have key : ∀ (sX sY : ℚ), sX = 1 → sY = 1 →
        ∀ (l acc : List (Cell × Color)),
        (∀ e ∈ l, isValidPosition e.1.1 e.1.2 dims = true) →
        ((acc ++ l).map Prod.fst).Nodup →
        List.foldl (scaleStep dims sX sY) acc l = acc ++ l := by
      rintro sX sY rfl rfl l
      induction l with
      | nil => intro acc _ _; simp
      | cons e rest ih =>
          intro acc hact hnd
          have hkey : e.1 ∉ acc.map Prod.fst := by
            intro hmem
            have hdisj := List.disjoint_of_nodup_append (by
              simpa only [List.map_append] using hnd)
            exact hdisj hmem (by simp)
          have hstep : scaleStep dims 1 1 acc e = acc ++ [e] := by
            unfold scaleStep
            simp only [mul_one, jsRound_intCast, Prod.mk.eta]
            rw [if_pos (by exact hact e (by simp)), objGet_eq_none acc e.1 hkey,
              objSet_append acc e.1 e.2 hkey]
          rw [List.foldl_cons, hstep, ih (acc ++ [e]) (fun x hx => hact x (by simp [hx]))
            (by rwa [← List.append_cons])]
          rw [← List.append_cons]
    have := key ((dims.maxColumns : ℚ) / (dims.maxColumns : ℚ))
      ((dims.totalRows : ℚ) / (dims.totalRows : ℚ)) (div_self hcolsQ) (div_self hrowsQ)
      (e0 :: rest0) [] hactive (by simpa using hnodup)
    simpa [scaleDesign] using this

/-- Witness for C6: the identity port evaluated on a concrete two-cell
design over `dimsW`. -/
theorem scale_port_identity_witness :
    ((∀ e ∈ designW, isValidPosition e.1.1 e.1.2 dimsW = true) ∧
      (designW.map Prod.fst).Nodup) ∧
    scaleDesign designW dimsW dimsW = designW :=
  ⟨⟨by decide, by decide⟩, scale_port_identity designW dimsW (by decide) (by decide)⟩

/-! ### History lemmas -/

theorem applyChanges_nil (sel : Delta → Color) (pixels : Cell → Option Color) :
    applyChanges sel pixels [] = pixels := rfl

theorem applyChanges_cons (sel : Delta → Color) (pixels : Cell → Option Color)
    (c : Delta) (rest : List Delta) :
    applyChanges sel pixels (c :: rest) =
      applyChanges sel
        (if (pixels c.cell).isSome then Function.update pixels c.cell (some (sel c)) else pixels)
        rest := rfl

theorem applyChanges_step_apply_ne (sel : Delta → Color) (pixels : Cell → Option Color)
    (c : Delta) (p : Cell) (hp : p ≠ c.cell) :
    (if (pixels c.cell).isSome
      then Function.update pixels c.cell (some (sel c)) else pixels) p = pixels p := by
  split
  · rw [Function.update_apply, if_neg hp]
  · rfl

theorem applyChanges_apply_notMem (sel : Delta → Color) (pixels : Cell → Option Color)
    (changes : List Delta) (p : Cell) (hp : p ∉ changes.map Delta.cell) :
    applyChanges sel pixels changes p = pixels p := by
  induction changes generalizing pixels with
  | nil => rfl
  | cons ch rest ih =>
      simp only [List.map_cons, List.mem_cons, not_or] at hp
      rw [applyChanges_cons, ih _ hp.2, applyChanges_step_apply_ne _ _ _ _ hp.1]

theorem applyChanges_isSome (sel : Delta → Color) (pixels : Cell → Option Color)
    (changes : List Delta) (p : Cell) :
    (applyChanges sel pixels changes p).isSome = (pixels p).isSome := by
  induction changes generalizing pixels with
  | nil => rfl
  | cons ch rest ih =>
      rw [applyChanges_cons, ih]
      by_cases hp : p = ch.cell
      · subst hp
        split
        · next hsome => rw [Function.update_same]; simp [hsome]
        · rfl
      · rw [applyChanges_step_apply_ne _ _ _ _ hp]

theorem applyChanges_apply_mem (sel : Delta → Color) (pixels : Cell → Option Color)
    (changes : List Delta) (ch : Delta) (hmem : ch ∈ changes)
    (hnodup : (changes.map Delta.cell).Nodup) (hsome : (pixels ch.cell).isSome) :
    applyChanges sel pixels changes ch.cell = some (sel ch) := by
  induction changes generalizing pixels with
  | nil => cases hmem
  | cons c rest ih =>
      simp only [List.map_cons, List.nodup_cons] at hnodup
      rw [applyChanges_cons]
      rcases List.mem_cons.mp hmem with hec | hmem'
      · subst hec
        rw [applyChanges_apply_notMem _ _ _ _ hnodup.1, if_pos hsome, Function.update_same]
      · have hne : ch.cell ≠ c.cell := by
          intro h
          exact hnodup.1 (h ▸ List.mem_map_of_mem Delta.cell hmem')
        refine ih _ hmem' hnodup.2 ?_
        rw [applyChanges_step_apply_ne _ _ _ _ hne]
        exact hsome

/-! ### C4 -/

theorem runHist_length_invariant (s : HistState) (acts : List HistAct)
    (h : s.undoStack.length + s.redoStack.length ≤ HISTORY_LIMIT) :
    (runHist s acts).undoStack.length + (runHist s acts).redoStack.length ≤ HISTORY_LIMIT := by
  induction acts generalizing s with
  | nil => exact h
  | cons a rest ih =>
      refine ih _ ?_
      match a with
      | .record op =>
          simp only [histStep, pushToUndoStack]
          split
          · exact h
          · simp only [List.length_nil, Nat.add_zero]
            split
            · rename_i hgt
              simp only [List.length_drop, List.length_append, List.length_cons,
                List.length_nil] at *
              omega
            · rename_i hgt
              simp only [List.length_append, List.length_cons, List.length_nil] at *
              omega
      | .actUndo =>
          simp only [histStep, undo]
          match hu : s.undoStack.getLast? with
          | none => exact h
          | some op =>
              have hne : s.undoStack ≠ [] := by
                intro hnil; rw [hnil] at hu; cases hu
              simp only [List.length_append, List.length_dropLast, List.length_cons,
                List.length_nil]
              have : 1 ≤ s.undoStack.length := List.length_pos.mpr hne
              omega
      | .actRedo =>
          simp only [histStep, redo]
          match hr : s.redoStack.getLast? with
          | none => exact h
          | some op =>
              have hne : s.redoStack ≠ [] := by
                intro hnil; rw [hnil] at hr; cases hr
              simp only [List.length_append, List.length_dropLast, List.length_cons,
                List.length_nil]
              have : 1 ≤ s.redoStack.length := List.length_pos.mpr hne
              omega
      | .actClear =>
          simp only [histStep, clearHistory, List.length_nil]
          omega

/-- **C4** (confirmed).  Across every sequence of record/undo/redo/reset
calls from the empty-stacks state: recording a non-empty operation always
empties the redo stack; recording an operation with an empty change list
changes nothing; the undo stack never exceeds `HISTORY_LIMIT`; and when a
push happens with the stack at capacity, the oldest (first/bottom) entry
is evicted, while below capacity the push simply appends. -/
theorem history_log_invariants (store : Cell → Option Color) (acts : List HistAct) :
    let s := runHist ⟨store, [], []⟩ acts
    s.undoStack.length ≤ HISTORY_LIMIT ∧
    ∀ op : Operation,
      (op.changes ≠ [] → (pushToUndoStack op s).redoStack = []) ∧
      (op.changes = [] → pushToUndoStack op s = s) ∧
      (op.changes ≠ [] → s.undoStack.length = HISTORY_LIMIT →
        (pushToUndoStack op s).undoStack = s.undoStack.tail ++ [op]) ∧
      (op.changes ≠ [] → s.undoStack.length < HISTORY_LIMIT →
        (pushToUndoStack op s).undoStack = s.undoStack ++ [op]) := by
  intro s
  have hbound : s.undoStack.length + s.redoStack.length ≤ HISTORY_LIMIT :=
    runHist_length_invariant ⟨store, [], []⟩ acts (by simp [HISTORY_LIMIT])
  refine ⟨by omega, fun op => ⟨?_, ?_, ?_, ?_⟩⟩
  · intro hne
    simp only [pushToUndoStack, List.length_eq_zero, if_neg hne]
  · intro hemp
    simp [pushToUndoStack, hemp]
  · intro hne hfull
    simp only [pushToUndoStack, List.length_eq_zero, if_neg hne]
    have hlen : HISTORY_LIMIT < (s.undoStack ++ [op]).length := by
      simp only [List.length_append, List.length_cons, List.length_nil, hfull]
      omega
    rw [if_pos hlen, List.drop_append_of_le_length (by rw [hfull]; decide), List.drop_one]
  · intro hne hlt
    simp only [pushToUndoStack, List.length_eq_zero, if_neg hne]
    have hlen : ¬ HISTORY_LIMIT < (s.undoStack ++ [op]).length := by
      simp only [List.length_append, List.length_cons, List.length_nil]
      omega
    rw [if_neg hlen]

/-- Witness for C4: the invariants evaluated after one concrete record. -/
theorem history_log_invariants_witness :
    ((opW.changes ≠ []) ∧ ((⟨[]⟩ : Operation).changes = []) ∧
      (runHist ⟨storeW, [], []⟩ [HistAct.record opW]).undoStack.length < HISTORY_LIMIT) ∧
    (runHist ⟨storeW, [], []⟩ [HistAct.record opW]).undoStack.length ≤ HISTORY_LIMIT ∧
    (pushToUndoStack opW (runHist ⟨storeW, [], []⟩ [HistAct.record opW])).redoStack = [] ∧
    pushToUndoStack ⟨[]⟩ (runHist ⟨storeW, [], []⟩ [HistAct.record opW]) =
      runHist ⟨storeW, [], []⟩ [HistAct.record opW] ∧
    (pushToUndoStack opW (runHist ⟨storeW, [], []⟩ [HistAct.record opW])).undoStack =
      (runHist ⟨storeW, [], []⟩ [HistAct.record opW]).undoStack ++ [opW] := by
  have h := history_log_invariants storeW [HistAct.record opW]
  exact ⟨⟨by decide, rfl, by decide⟩, h.1, (h.2 opW).1 (by decide), (h.2 ⟨[]⟩).2.1 rfl,
    (h.2 opW).2.2.2 (by decide) (by decide)⟩

/-! ### C9 -/

theorem histStep_preserves_nonempty (a : HistAct) (s : HistState)
    (hu : ∀ op ∈ s.undoStack, op.changes ≠ []) (hr : ∀ op ∈ s.redoStack, op.changes ≠ []) :
    (∀ op ∈ (histStep a s).undoStack, op.changes ≠ []) ∧
    (∀ op ∈ (histStep a s).redoStack, op.changes ≠ []) := by
  match a with
  | .record op =>
      simp only [histStep, pushToUndoStack]
      split
      · exact ⟨hu, hr⟩
      · rename_i hne
        rw [List.length_eq_zero] at hne
        refine ⟨?_, by intro op' hop'; cases hop'⟩
        intro op' hop'
        simp only [] at hop'
        have hop'' : op' ∈ s.undoStack ++ [op] := by
          split at hop'
          · exact List.mem_of_mem_drop hop'
          · exact hop'
        rcases List.mem_append.mp hop'' with h | h
        · exact hu _ h
        · rw [List.mem_singleton.mp h]; exact hne
  | .actUndo =>
      simp only [histStep, undo]
      match hgl : s.undoStack.getLast? with
      | none => exact ⟨hu, hr⟩
      | some op =>
          have hop : op ∈ s.undoStack := List.mem_of_getLast?_eq_some hgl
          refine ⟨fun op' hop' => hu _ (List.dropLast_subset _ hop'), fun op' hop' => ?_⟩
          rcases List.mem_append.mp hop' with h | h
          · exact hr _ h
          · rw [List.mem_singleton.mp h]; exact hu _ hop
  | .actRedo =>
      simp only [histStep, redo]
      match hgl : s.redoStack.getLast? with
      | none => exact ⟨hu, hr⟩
      | some op =>
          have hop : op ∈ s.redoStack := List.mem_of_getLast?_eq_some hgl
          refine ⟨fun op' hop' => ?_, fun op' hop' => hr _ (List.dropLast_subset _ hop')⟩
          rcases List.mem_append.mp hop' with h | h
          · exact hu _ h
          · rw [List.mem_singleton.mp h]; exact hr _ hop
  | .actClear =>
      simp [histStep, clearHistory]

/-- **C9** (confirmed).  From the initial empty-stacks state, every
operation held in either history stack has a non-empty change list, across
every sequence of `pushToUndoStack`/`undo`/`redo`/`clearHistory` calls. -/
theorem history_stacks_hold_nonempty_ops (store : Cell → Option Color) (acts : List HistAct) :
    (∀ op ∈ (runHist ⟨store, [], []⟩ acts).undoStack, op.changes ≠ []) ∧
    (∀ op ∈ (runHist ⟨store, [], []⟩ acts).redoStack, op.changes ≠ []) := by
  suffices h : ∀ (acts : List HistAct) (s : HistState),
      (∀ op ∈ s.undoStack, op.changes ≠ []) → (∀ op ∈ s.redoStack, op.changes ≠ []) →
      (∀ op ∈ (runHist s acts).undoStack, op.changes ≠ []) ∧
      (∀ op ∈ (runHist s acts).redoStack, op.changes ≠ []) by
    exact h acts ⟨store, [], []⟩ (by simp) (by simp)
  intro acts
  induction acts with
  | nil => exact fun s hu hr => ⟨hu, hr⟩
  | cons a rest ih =>
      intro s hu hr
      have hstep := histStep_preserves_nonempty a s hu hr
      exact ih _ hstep.1 hstep.2

/-! ### C5 -/

theorem pushToUndoStack_parts (op : Operation) (s : HistState) (hne : op.changes ≠ []) :
    (pushToUndoStack op s).undoStack.getLast? = some op ∧
    (pushToUndoStack op s).redoStack = [] ∧
    (pushToUndoStack op s).pixels = s.pixels := by
  simp only [pushToUndoStack, List.length_eq_zero, if_neg hne]
  refine ⟨?_, by trivial, by trivial⟩
  split
  · rename_i hgt
    have h1 : 1 ≤ s.undoStack.length := by
      simp only [List.length_append, List.length_cons, List.length_nil] at hgt
      have : 1 ≤ HISTORY_LIMIT := by decide
      omega
    rw [List.drop_append_of_le_length h1, List.getLast?_concat]
  · exact List.getLast?_concat _

theorem undo_of_getLast (s : HistState) (op : Operation)
    (h : s.undoStack.getLast? = some op) :
    undo s = ⟨applyChanges (fun ch => ch.oldColor) s.pixels op.changes,
      s.undoStack.dropLast, s.redoStack ++ [op]⟩ := by
  rw [undo, h]

theorem redo_of_getLast (s : HistState) (op : Operation)
    (h : s.redoStack.getLast? = some op) :
    redo s = ⟨applyChanges (fun ch => ch.newColor) s.pixels op.changes,
      s.undoStack ++ [op], s.redoStack.dropLast⟩ := by
  rw [redo, h]

theorem applyOld_applyNew (S0 : Cell → Option Color) (changes : List Delta)
    (hold : ∀ ch ∈ changes, S0 ch.cell = some ch.oldColor)
    (hnodup : (changes.map Delta.cell).Nodup) :
    applyChanges (fun ch => ch.oldColor)
      (applyChanges (fun ch => ch.newColor) S0 changes) changes = S0 := by
  funext p
  by_cases hp : p ∈ changes.map Delta.cell
  · obtain ⟨ch, hch, hcell⟩ := List.mem_map.mp hp
    subst hcell
    have hsome : ((applyChanges (fun ch => ch.newColor) S0 changes) ch.cell).isSome := by
      rw [applyChanges_isSome, hold ch hch]
      rfl
    rw [applyChanges_apply_mem _ _ _ _ hch hnodup hsome, hold ch hch]
  · rw [applyChanges_apply_notMem _ _ _ _ hp, applyChanges_apply_notMem _ _ _ _ hp]

/-- **C5 amended** (corrected).  For every pixel store, stack contents and
non-empty operation whose deltas address pairwise-distinct cells and whose
`oldColor` fields match the pre-edit store: after applying the operation
and recording it, `undo` restores every delta's `oldColor` exactly
(recovering the pre-edit store), `redo` immediately after restores every
delta's `newColor` exactly, and `record → undo → redo` reproduces the
post-record store bit-for-bit.  The distinct-cells hypothesis is the
amendment: with duplicate cells in one operation, the redo clause fails
(see the counterexample). -/
theorem record_undo_redo_roundtrip
    (S0 : Cell → Option Color) (U R : List Operation) (op : Operation)
    (hne : op.changes ≠ [])
    (hold : ∀ ch ∈ op.changes, S0 ch.cell = some ch.oldColor)
    (hnodup : (op.changes.map Delta.cell).Nodup) :
    let s1 := pushToUndoStack op ⟨applyChanges (fun ch => ch.newColor) S0 op.changes, U, R⟩
    let s2 := undo s1
    let s3 := redo s2
    (∀ ch ∈ op.changes, s2.pixels ch.cell = some ch.oldColor) ∧
    s2.pixels = S0 ∧
    (∀ ch ∈ op.changes, s3.pixels ch.cell = some ch.newColor) ∧
    s3.pixels = s1.pixels := by
  intro s1 s2 s3
  obtain ⟨hlast, hredo, hpix⟩ :=
    pushToUndoStack_parts op ⟨applyChanges (fun ch => ch.newColor) S0 op.changes, U, R⟩ hne
  have hs2 : s2 = ⟨applyChanges (fun ch => ch.oldColor) s1.pixels op.changes,
      s1.undoStack.dropLast, s1.redoStack ++ [op]⟩ := undo_of_getLast s1 op hlast
  have hs2pix : s2.pixels = S0 := by
    rw [hs2]
    show applyChanges _ s1.pixels op.changes = S0
    rw [hpix]
    exact applyOld_applyNew S0 op.changes hold hnodup
  have hs2redo : s2.redoStack.getLast? = some op := by
    rw [hs2]
    show (s1.redoStack ++ [op]).getLast? = some op
    exact List.getLast?_concat _
  have hs3 : s3 = ⟨applyChanges (fun ch => ch.newColor) s2.pixels op.changes,
      s2.undoStack ++ [op], s2.redoStack.dropLast⟩ := redo_of_getLast s2 op hs2redo
  have hs3pix : s3.pixels = s1.pixels := by
    rw [hs3]
    show applyChanges _ s2.pixels op.changes = s1.pixels
    rw [hs2pix, hpix]
  refine ⟨?_, hs2pix, ?_, hs3pix⟩
  · intro ch hch
    rw [hs2pix]
    exact hold ch hch
  · intro ch hch
    rw [hs3pix, hpix]
    have hsome : (S0 ch.cell).isSome := by rw [hold ch hch]; rfl
    exact applyChanges_apply_mem _ _ _ _ hch hnodup hsome

/-- Witness for C5 (amended): the round trip evaluated on one pixel and a
one-delta operation, with the hypotheses discharged concretely. -/
theorem record_undo_redo_roundtrip_witness :
    (opW.changes ≠ [] ∧ (∀ ch ∈ opW.changes, storeW ch.cell = some ch.oldColor) ∧
      (opW.changes.map Delta.cell).Nodup) ∧
    (let s1 := pushToUndoStack opW ⟨applyChanges (fun ch => ch.newColor) storeW opW.changes, [], []⟩
     let s2 := undo s1
     let s3 := redo s2
     (∀ ch ∈ opW.changes, s2.pixels ch.cell = some ch.oldColor) ∧
     s2.pixels = storeW ∧
     (∀ ch ∈ opW.changes, s3.pixels ch.cell = some ch.newColor) ∧
     s3.pixels = s1.pixels) :=
  ⟨⟨by decide, by decide, by decide⟩,
   record_undo_redo_roundtrip storeW [] [] opW (by decide) (by decide) (by decide)⟩

/-- Counterexample for C5 as stated: the duplicate-cell operation `opDup`
satisfies the claim's hypotheses (non-empty, `oldColor`s match the
pre-record store), yet after `record → undo → redo` the store does not
hold every delta's `newColor` (the first delta's `newColor` is lost to the
second write on the same cell). -/
theorem record_undo_redo_claim_false :
    (opDup.changes ≠ [] ∧ ∀ ch ∈ opDup.changes, storeW ch.cell = some ch.oldColor) ∧
    ¬ (∀ ch ∈ opDup.changes,
        (redo (undo (pushToUndoStack opDup
          ⟨applyChanges (fun ch => ch.newColor) storeW opDup.changes, [], []⟩))).pixels ch.cell =
          some ch.newColor) := by
  refine ⟨⟨by decide, by decide⟩, ?_⟩
  decide

/-- Witness for C9: the invariant evaluated on a concrete sequence. -/
theorem history_stacks_hold_nonempty_ops_witness :
    opW ∈ (runHist ⟨storeW, [], []⟩ [HistAct.record opW, HistAct.actUndo]).redoStack ∧
    opW.changes ≠ [] :=
  ⟨by decide,
   (history_stacks_hold_nonempty_ops storeW [HistAct.record opW, HistAct.actUndo]).2 opW
     (by decide)⟩

/-! ### C1 -/

/-- **C1** (code_bug, evaluated at the failing input).  `reflectPatternH`
mutates mirror pixels while its scan over `state.pixels` is still
running, so a later iteration's source read can return a colour already
overwritten by an earlier delta of the same operation — the claim (and
the spec's stale-source snapshot rule) say this never happens.  At the
failing input ((1,1) red, (1,107) blue): the instrumented run's flag
records an overwritten source read; the code produces ONE delta and
leaves both cells red, while the snapshot semantics required by the spec
produces two deltas and swaps the colours. -/
theorem reflect_scan_reads_overwritten_source :
    (reflectPatternHRun reflectCells reflectColors).2 = true ∧
    (reflectPatternH reflectCells reflectColors).2 = [⟨1, 107, "blue", "red"⟩] ∧
    (reflectPatternH reflectCells reflectColors).1 (1, 1) = "red" ∧
    (reflectPatternH reflectCells reflectColors).1 (1, 107) = "red" ∧
    (reflectSnapshotH reflectCells reflectColors).2 =
      [⟨1, 107, "blue", "red"⟩, ⟨1, 1, "red", "blue"⟩] ∧
    (reflectSnapshotH reflectCells reflectColors).1 (1, 1) = "blue" ∧
    (reflectSnapshotH reflectCells reflectColors).1 (1, 107) = "red" := by
  refine ⟨by decide, by decide, by decide, by decide, by decide, by decide, by decide⟩

/-! ### C2 -/

theorem find?_range_first (p : Nat → Bool) :
    ∀ (n k : Nat), (List.range n).find? p = some k →
      k < n ∧ p k = true ∧ ∀ j, j < k → p j = false := by
  intro n
  induction n with
  | zero => intro k h; simp [List.range_zero] at h
  | succ n ih =>
      intro k h
      rw [List.range_succ, List.find?_append] at h
      cases hfn : (List.range n).find? p with
      | some k' =>
          rw [hfn, Option.or_some] at h
          have hkk : k' = k := by injection h
          rw [hkk] at hfn
          obtain ⟨h1, h2, h3⟩ := ih k hfn
          exact ⟨Nat.lt_succ_of_lt h1, h2, h3⟩
      | none =>
          rw [hfn, Option.none_or] at h
          have hnone : ∀ j, j < n → p j = false := by
            intro j hj
            have := List.find?_eq_none.mp hfn j (List.mem_range.mpr hj)
            exact Bool.eq_false_iff.mpr this
          cases hpn : p n with
          | true =>
              have hk : k = n := by
                simp only [List.find?_cons, hpn, List.find?_nil] at h
                injection h with h
                exact h.symm
              subst hk
              exact ⟨Nat.lt_succ_self _, hpn, hnone⟩
          | false =>
              simp only [List.find?_cons, hpn, List.find?_nil] at h
              cases h

theorem mem_sizesFoldl (sizes : List (String × SizeConfig)) :
    ∀ (init : List VErr) (x : VErr),
      (x ∈ init ∨ ∃ p ∈ sizes,
        x ∈ (if p.1 ∈ validSizes then validateSize p.1 p.2
             else [VErr.invalidSizeKey p.1])) →
      x ∈ sizes.foldl
        (fun acc p =>
          acc ++ (if p.1 ∈ validSizes then validateSize p.1 p.2
                  else [VErr.invalidSizeKey p.1]))
        init := by
  induction sizes with
  | nil =>
      intro init x h
      rcases h with h | ⟨p, hp, _⟩
      · exact h
      · cases hp
  | cons q rest ih =>
      intro init x h
      rw [List.foldl_cons]
      apply ih
      rcases h with h | ⟨p, hp, hx⟩
      · exact Or.inl (List.mem_append.mpr (Or.inl h))
      · rcases List.mem_cons.mp hp with heq | hp'
        · subst heq
          exact Or.inl (List.mem_append.mpr (Or.inr hx))
        · exact Or.inr ⟨p, hp', hx⟩

theorem getConfig_setConfig (configs : List (String × JumperConfig)) (k : String)
    (v : JumperConfig) : getConfig (setConfig configs k v) k = some v := by
  unfold setConfig
  split
  · rename_i hsome
    obtain ⟨e, hfind⟩ := Option.isSome_iff_exists.mp hsome
    have hek : e.1 = k := by
      have := List.find?_some hfind
      simpa using this
    have hmem : e ∈ configs := List.mem_of_find?_eq_some hfind
    clear hfind hsome
    induction configs with
    | nil => cases hmem
    | cons c rest ih =>
        rcases List.mem_cons.mp hmem with heq | hmem'
        · subst heq
          simp only [List.map_cons, if_pos hek]
          unfold getConfig
          simp [List.find?_cons]
        · by_cases hck : c.1 = k
          · simp only [List.map_cons, if_pos hck]
            unfold getConfig
            simp [List.find?_cons]
          · simp only [List.map_cons, if_neg hck]
            unfold getConfig at ih ⊢
            simp only [List.find?_cons, decide_eq_false hck]
            exact ih hmem'
  · induction configs with
    | nil =>
        unfold getConfig
        simp [List.find?_cons]
    | cons c rest ih =>
        rename_i hnone
        have hck : ¬ c.1 = k := by
          intro hck
          apply hnone
          rw [Option.isSome_iff_exists]
          refine ⟨c, ?_⟩
          simp [List.find?_cons, hck]
        unfold getConfig at ih ⊢
        simp only [List.cons_append, List.find?_cons, decide_eq_false hck]
        apply ih
        intro hsome
        apply hnone
        obtain ⟨e, hfind⟩ := Option.isSome_iff_exists.mp hsome
        rw [Option.isSome_iff_exists]
        exact ⟨e, by simp [List.find?_cons, decide_eq_false hck, hfind]⟩

/-- Counterexample for C2 as stated: the gapped descriptor `gapConfig`
fails validation (row 2 of size `M` is uncovered and reported), yet the
`loadBuiltInConfigs` step still stores it, so `getConfig` finds it —
the configuration IS made available for use, and no fallback occurs. -/
theorem gapped_config_loaded_anyway :
    (validateJumperConfig gapConfig).1 = false ∧
    VErr.rowNotCovered "M" 2 ∈ (validateJumperConfig gapConfig).2 ∧
    getConfig (loadBuiltInConfigStep [] "gap" (some gapConfig)).1 "gap" = some gapConfig := by
  refine ⟨by decide, by decide, by decide⟩

/-- **C2 amended** (corrected).  For every descriptor with a size entry
whose key is one of the valid sizes, whose `rowsConfig` is present, and
where some row in `[1, totalRows]` is covered by no band: validation
fails and reports the FIRST uncovered row of that size as an error, and
the `loadBuiltInConfigs` step logs the errors as a warning — but, contrary
to the claim, it still stores the configuration, which remains available
through `getConfig`; no fallback to a default geometry happens. -/
theorem validation_reports_gap_but_config_still_loads
    (config : JumperConfig) (sizes : List (String × SizeConfig)) (size : String)
    (sc : SizeConfig) (bands : List RowBand) (r : Int)
    (hsizes : config.sizes = some sizes) (hmem : (size, sc) ∈ sizes)
    (hkey : size ∈ validSizes) (hbands : sc.rowsConfig = some bands)
    (hr1 : 1 ≤ r) (hr2 : r ≤ sc.totalRows)
    (huncov : bands.any (fun rc => bandMatches r rc) = false) :
    (∃ r0 : Int, 1 ≤ r0 ∧ r0 ≤ sc.totalRows ∧
        bands.any (fun rc => bandMatches r0 rc) = false ∧
        (∀ r' : Int, 1 ≤ r' → r' < r0 → bands.any (fun rc => bandMatches r' rc) = true) ∧
        VErr.rowNotCovered size r0 ∈ (validateJumperConfig config).2) ∧
    (validateJumperConfig config).1 = false ∧
    (∀ (configs : List (String × JumperConfig)) (configId : String),
      (loadBuiltInConfigStep configs configId (some config)).1 =
        setConfig configs configId config ∧
      getConfig (loadBuiltInConfigStep configs configId (some config)).1 configId =
        some config ∧
      (loadBuiltInConfigStep configs configId (some config)).2 =
        [(configId, (validateJumperConfig config).2)]) := by
  have htot : sc.totalRows ≠ 0 := by omega
  -- the range search of the coverage loop succeeds
  have hksome : ((List.range sc.totalRows.toNat).find?
      (fun (k : Nat) => !(bands.any (fun rc => bandMatches ((k : Int) + 1) rc)))).isSome := by
    rw [List.find?_isSome]
    refine ⟨(r - 1).toNat, List.mem_range.mpr ?_, ?_⟩
    · omega
    · show (!(bands.any (fun rc => bandMatches (((r - 1).toNat : Int) + 1) rc))) = true
      have hcast : ((r - 1).toNat : Int) + 1 = r := by omega
      rw [hcast, huncov]
      rfl
  obtain ⟨k0, hfind⟩ := Option.isSome_iff_exists.mp hksome
  obtain ⟨hk0lt, hk0p, hk0min⟩ := find?_range_first _ _ _ hfind
  set r0 : Int := (k0 : Int) + 1 with hr0
  have hr01 : 1 ≤ r0 := by omega
  have hr0le : r0 ≤ sc.totalRows := by omega
  have hr0unc : bands.any (fun rc => bandMatches r0 rc) = false := by
    have h' : (!(bands.any (fun rc => bandMatches ((k0 : Int) + 1) rc))) = true := hk0p
    rw [Bool.not_eq_true'] at h'
    exact h'

  have hr0min : ∀ r' : Int, 1 ≤ r' → r' < r0 → bands.any (fun rc => bandMatches r' rc) = true := by
    intro r' h1 h2
    have hj : (r' - 1).toNat < k0 := by omega
    have h' : (!(bands.any (fun rc =>
        bandMatches ((((r' - 1).toNat : Nat) : Int) + 1) rc))) = false := hk0min _ hj
    rw [Bool.not_eq_false'] at h'
    have hcast : (((r' - 1).toNat : Nat) : Int) + 1 = r' := by omega
    rwa [hcast] at h'

  have hred : validateSize size sc =
      (if sc.totalRows = 0 then [VErr.missingTotalRows size] else []) ++
      (if sc.maxColumns = 0 then [VErr.missingMaxColumns size] else []) ++
      (if (some bands : Option (List RowBand)).isNone then [VErr.missingRowsConfig size]
        else []) ++
      (if sc.totalRows ≠ 0 then
          (bands.filter (fun rc => rc.start.isNone || rc.stop.isNone)).map
            (fun _ => VErr.rowsEntryMissingStartEnd size) ++
          (match (List.range sc.totalRows.toNat).find?
              (fun (k : Nat) => !(bands.any (fun rc => bandMatches ((k : Int) + 1) rc))) with
            | some k => [VErr.rowNotCovered size ((k : Int) + 1)]
            | none => [])
        else []) := by
    unfold validateSize
    rw [hbands]
  have hmemSize : VErr.rowNotCovered size r0 ∈ validateSize size sc := by
    rw [hred, if_pos htot, hfind]
    simp [hr0]
  have hmemAll : VErr.rowNotCovered size r0 ∈ validateErrors config := by
    unfold validateErrors
    rw [hsizes]
    refine List.mem_append.mpr (Or.inr ?_)
    refine mem_sizesFoldl sizes [] _ (Or.inr ⟨(size, sc), hmem, ?_⟩)
    rw [if_pos hkey]
    exact hmemSize
  have hvalidFalse : (validateJumperConfig config).1 = false := by
    show (validateErrors config).isEmpty = false
    exact List.isEmpty_eq_false.mpr (List.ne_nil_of_mem hmemAll)
  refine ⟨⟨r0, hr01, hr0le, hr0unc, hr0min, hmemAll⟩, hvalidFalse, ?_⟩
  intro configs configId
  refine ⟨rfl, getConfig_setConfig configs configId config, ?_⟩
  show (if (validateJumperConfig config).1 = true then _ else _) = _
  rw [hvalidFalse]
  simp

/-- Witness for C2 (amended): evaluated on the concrete gapped descriptor
`gapConfig`, loaded into an empty config map. -/
theorem validation_reports_gap_witness :
    (gapConfig.sizes = some [("M", gapSizeM)] ∧ ("M", gapSizeM) ∈ [("M", gapSizeM)] ∧
      "M" ∈ validSizes ∧ gapSizeM.rowsConfig = some gapBands ∧
      (1 : Int) ≤ 2 ∧ (2 : Int) ≤ gapSizeM.totalRows ∧
      gapBands.any (fun rc => bandMatches 2 rc) = false) ∧
    (∃ r0 : Int, 1 ≤ r0 ∧ r0 ≤ gapSizeM.totalRows ∧
        gapBands.any (fun rc => bandMatches r0 rc) = false ∧
        (∀ r' : Int, 1 ≤ r' → r' < r0 → gapBands.any (fun rc => bandMatches r' rc) = true) ∧
        VErr.rowNotCovered "M" r0 ∈ (validateJumperConfig gapConfig).2) ∧
    (validateJumperConfig gapConfig).1 = false ∧
    (∀ (configs : List (String × JumperConfig)) (configId : String),
      (loadBuiltInConfigStep configs configId (some gapConfig)).1 =
        setConfig configs configId gapConfig ∧
      getConfig (loadBuiltInConfigStep configs configId (some gapConfig)).1 configId =
        some gapConfig ∧
      (loadBuiltInConfigStep configs configId (some gapConfig)).2 =
        [(configId, (validateJumperConfig gapConfig).2)]) :=
  ⟨⟨rfl, by decide, by decide, rfl, by decide, by decide, by decide⟩,
   validation_reports_gap_but_config_still_loads gapConfig [("M", gapSizeM)] "M" gapSizeM
     gapBands 2 rfl (by decide) (by decide) rfl (by decide) (by decide) (by decide)⟩

/-! ### Flood-fill loop lemmas -/

theorem mem_gridCells (c : Cell) : c ∈ gridCells ↔ inGrid c = true := by
  unfold gridCells inGrid
  rw [Finset.mem_product, Finset.mem_Icc, Finset.mem_Icc, decide_eq_true_eq]
  tauto

theorem FillInv.skip (cells : List Cell) (init : Cell → Color) (target fillColor : Color)
    (start : Cell) (s : FillState) (c : Cell) (rest : List Cell)
    (hinv : FillInv cells init target fillColor start s)
    (hq : s.queue = c :: rest) (hcv : c ∉ s.visited)
    (hnat : ¬(c ∈ cells ∧ normalizeColor (init c) = target)) :
    FillInv cells init target fillColor start
      { s with visited := insert c s.visited, queue := rest } := by
  have hlift : ∀ p : Cell,
      (p ∈ insert c s.visited ∧ p ∈ cells ∧ normalizeColor (init p) = target) ↔
      (p ∈ s.visited ∧ p ∈ cells ∧ normalizeColor (init p) = target) := by
    intro p
    constructor
    · rintro ⟨hpv, hat⟩
      rcases Finset.mem_insert.mp hpv with rfl | hpv'
      · exact absurd hat hnat
      · exact ⟨hpv', hat⟩
    · rintro ⟨hpv, hat⟩
      exact ⟨Finset.mem_insert_of_mem hpv, hat⟩
  refine ⟨?_, ?_, ?_, hinv.nodup, hinv.delta_fields, ?_, ?_, ?_, ?_, ?_⟩
  · intro p
    dsimp only
    exact (hinv.changes_iff p).trans (hlift p).symm
  · intro p hp
    dsimp only at hp ⊢
    exact hinv.colors_changed p ((hlift p).mp hp)
  · intro p hp
    dsimp only at hp ⊢
    exact hinv.colors_same p (fun h => hp ((hlift p).mpr h))
  · intro q hqm
    dsimp only at hqm
    exact hinv.queue_cand q (by rw [hq]; exact List.mem_cons_of_mem c hqm)
  · rcases hinv.start_mem with h | h
    · exact Or.inl (Finset.mem_insert_of_mem h)
    · rw [hq] at h
      rcases List.mem_cons.mp h with rfl | h'
      · exact Or.inl (Finset.mem_insert_self _ _)
      · exact Or.inr h'
  · intro p hp n hn hg
    dsimp only at hp ⊢
    rcases hinv.closure p ((hlift p).mp hp) n hn hg with h | h
    · exact Or.inl (Finset.mem_insert_of_mem h)
    · rw [hq] at h
      rcases List.mem_cons.mp h with rfl | h'
      · exact Or.inl (Finset.mem_insert_self _ _)
      · exact Or.inr h'
  · intro p hp
    dsimp only at hp
    exact hinv.sound p ((hlift p).mp hp)
  · intro q hqm
    dsimp only at hqm
    rcases hinv.queue_src q (by rw [hq]; exact List.mem_cons_of_mem c hqm) with h | ⟨p, hpv, hat, hnb⟩
    · exact Or.inl h
    · exact Or.inr ⟨p, Finset.mem_insert_of_mem hpv, hat, hnb⟩

theorem FillInv.popVisited (cells : List Cell) (init : Cell → Color) (target fillColor : Color)
    (start : Cell) (s : FillState) (c : Cell) (rest : List Cell)
    (hinv : FillInv cells init target fillColor start s)
    (hq : s.queue = c :: rest) (hcv : c ∈ s.visited) :
    FillInv cells init target fillColor start { s with queue := rest } := by
  refine ⟨hinv.changes_iff, hinv.colors_changed, hinv.colors_same, hinv.nodup,
    hinv.delta_fields, ?_, ?_, ?_, hinv.sound, ?_⟩
  · intro q hqm
    dsimp only at hqm
    exact hinv.queue_cand q (by rw [hq]; exact List.mem_cons_of_mem c hqm)
  · rcases hinv.start_mem with h | h
    · exact Or.inl h
    · rw [hq] at h
      rcases List.mem_cons.mp h with rfl | h'
      · exact Or.inl hcv
      · exact Or.inr h'
  · intro p hp n hn hg
    dsimp only at hp ⊢
    rcases hinv.closure p hp n hn hg with h | h
    · exact Or.inl h
    · rw [hq] at h
      rcases List.mem_cons.mp h with rfl | h'
      · exact Or.inl hcv
      · exact Or.inr h'
  · intro q hqm
    dsimp only at hqm
    exact hinv.queue_src q (by rw [hq]; exact List.mem_cons_of_mem c hqm)

theorem FillInv.change (cells : List Cell) (init : Cell → Color) (target fillColor : Color)
    (start : Cell) (s : FillState) (c : Cell) (rest : List Cell)
    (htarget : target = normalizeColor (init start))
    (hinv : FillInv cells init target fillColor start s)
    (hq : s.queue = c :: rest) (hcv : c ∉ s.visited)
    (hcc : c ∈ cells) (hct : normalizeColor (init c) = target) :
    FillInv cells init target fillColor start
      { colors := Function.update s.colors c fillColor,
        visited := insert c s.visited,
        queue := rest ++ (neighborsOf c).filter
          (fun n => decide (n ∉ insert c s.visited) && inGrid n),
        changes := s.changes ++
          [⟨c.1, c.2, if s.colors c = "" then "white" else s.colors c, fillColor⟩] } := by
  have hcol : s.colors c = init c := hinv.colors_same c (fun h => hcv h.1)
  have hcell0 : Delta.cell ⟨c.1, c.2, if s.colors c = "" then "white" else s.colors c,
      fillColor⟩ = c := rfl
  have hcnot : ¬ ∃ d ∈ s.changes, d.cell = c := fun hex => hcv ((hinv.changes_iff c).mp hex).1
  refine ⟨?_, ?_, ?_, ?_, ?_, ?_, ?_, ?_, ?_, ?_⟩
  · intro p
    dsimp only
    constructor
    · rintro ⟨d, hd, hcell⟩
      rcases List.mem_append.mp hd with hd' | hd'
      · have := (hinv.changes_iff p).mp ⟨d, hd', hcell⟩
        exact ⟨Finset.mem_insert_of_mem this.1, this.2⟩
      · rw [List.mem_singleton.mp hd'] at hcell
        rw [hcell0] at hcell
        subst hcell
        exact ⟨Finset.mem_insert_self _ _, hcc, hct⟩
    · rintro ⟨hpv, hat⟩
      rcases Finset.mem_insert.mp hpv with rfl | hpv'
      · exact ⟨_, List.mem_append.mpr (Or.inr (List.mem_singleton_self _)), hcell0⟩
      · obtain ⟨d, hd, hcell⟩ := (hinv.changes_iff p).mpr ⟨hpv', hat⟩
        exact ⟨d, List.mem_append.mpr (Or.inl hd), hcell⟩
  · intro p hp
    dsimp only at hp ⊢
    by_cases hpc : p = c
    · subst hpc
      exact Function.update_same _ _ _
    · rw [Function.update_apply, if_neg hpc]
      rcases hp with ⟨hpv, hat⟩
      rcases Finset.mem_insert.mp hpv with h | hpv'
      · exact absurd h hpc
      · exact hinv.colors_changed p ⟨hpv', hat⟩
  · intro p hp
    dsimp only at hp ⊢
    by_cases hpc : p = c
    · subst hpc
      exact absurd ⟨Finset.mem_insert_self _ _, hcc, hct⟩ hp
    · rw [Function.update_apply, if_neg hpc]
      exact hinv.colors_same p (fun h => hp ⟨Finset.mem_insert_of_mem h.1, h.2⟩)
  · dsimp only
    rw [List.map_append]
    rw [List.nodup_append]
    refine ⟨hinv.nodup, List.nodup_singleton _, ?_⟩
    rw [List.disjoint_left]
    intro a ha hb
    rw [List.map_singleton, hcell0, List.mem_singleton] at hb
    subst hb
    obtain ⟨d, hd, hcell⟩ := List.mem_map.mp ha
    exact hcnot ⟨d, hd, hcell⟩
  · intro d hd
    dsimp only at hd
    rcases List.mem_append.mp hd with hd' | hd'
    · exact hinv.delta_fields d hd'
    · rw [List.mem_singleton.mp hd']
      rw [hcell0]
      exact ⟨by rw [hcol], rfl⟩
  · intro q hqm
    dsimp only at hqm
    rcases List.mem_append.mp hqm with h | h
    · exact hinv.queue_cand q (by rw [hq]; exact List.mem_cons_of_mem c h)
    · have hfil := List.of_mem_filter h
      rw [Bool.and_eq_true] at hfil
      exact Finset.mem_insert_of_mem ((mem_gridCells q).mpr hfil.2)
  · dsimp only
    rcases hinv.start_mem with h | h
    · exact Or.inl (Finset.mem_insert_of_mem h)
    · rw [hq] at h
      rcases List.mem_cons.mp h with rfl | h'
      · exact Or.inl (Finset.mem_insert_self _ _)
      · exact Or.inr (List.mem_append.mpr (Or.inl h'))
  · intro p hp n hn hg
    dsimp only at hp ⊢
    rcases hp with ⟨hpv, hat⟩
    rcases Finset.mem_insert.mp hpv with rfl | hpv'
    · by_cases hnv : n ∈ insert p s.visited
      · exact Or.inl hnv
      · refine Or.inr (List.mem_append.mpr (Or.inr ?_))
        refine List.mem_filter.mpr ⟨hn, ?_⟩
        rw [Bool.and_eq_true, decide_eq_true_eq]
        exact ⟨hnv, hg⟩
    · rcases hinv.closure p ⟨hpv', hat⟩ n hn hg with h | h
      · exact Or.inl (Finset.mem_insert_of_mem h)
      · rw [hq] at h
        rcases List.mem_cons.mp h with rfl | h'
        · exact Or.inl (Finset.mem_insert_self _ _)
        · exact Or.inr (List.mem_append.mpr (Or.inl h'))
  · intro p hp
    dsimp only at hp
    rcases hp with ⟨hpv, hat⟩
    rcases Finset.mem_insert.mp hpv with rfl | hpv'
    · rcases hinv.queue_src p (by rw [hq]; exact List.mem_cons_self _ rest)
          with h | ⟨p', hp'v, hat1, hat2, hnb⟩
      · subst h
        exact Reaches.base hat.1 hat.2
      · exact Reaches.step (hinv.sound p' ⟨hp'v, hat1, hat2⟩) hnb hat.1 hat.2
    · exact hinv.sound p ⟨hpv', hat⟩
  · intro q hqm
    dsimp only at hqm
    rcases List.mem_append.mp hqm with h | h
    · rcases hinv.queue_src q (by rw [hq]; exact List.mem_cons_of_mem c h) with h' | ⟨p, hpv, hat, hnb⟩
      · exact Or.inl h'
      · exact Or.inr ⟨p, Finset.mem_insert_of_mem hpv, hat, hnb⟩
    · exact Or.inr ⟨c, Finset.mem_insert_self _ _, hcc, hct, List.mem_of_mem_filter h⟩

theorem floodStep_inv (cells : List Cell) (init : Cell → Color) (target fillColor : Color)
    (start : Cell) (s : FillState) (c : Cell) (rest : List Cell)
    (htarget : target = normalizeColor (init start))
    (hinv : FillInv cells init target fillColor start s)
    (hq : s.queue = c :: rest) :
    FillInv cells init target fillColor start (floodStep cells target fillColor c rest s) := by
  unfold floodStep
  by_cases hcv : c ∈ s.visited
  · rw [if_pos hcv]
    exact FillInv.popVisited cells init target fillColor start s c rest hinv hq hcv
  · rw [if_neg hcv]
    have hcol : s.colors c = init c := hinv.colors_same c (fun h => hcv h.1)
    by_cases hcc : c ∈ cells
    · rw [if_pos hcc]
      by_cases hct : normalizeColor (s.colors c) = target
      · rw [if_pos hct]
        rw [hcol] at hct
        exact FillInv.change cells init target fillColor start s c rest htarget hinv hq hcv hcc hct
      · rw [if_neg hct]
        rw [hcol] at hct
        exact FillInv.skip cells init target fillColor start s c rest hinv hq hcv
          (fun h => hct h.2)
    · rw [if_neg hcc]
      exact FillInv.skip cells init target fillColor start s c rest hinv hq hcv
        (fun h => hcc h.1)

theorem floodStep_measure (cells : List Cell) (target fillColor : Color)
    (start : Cell) (s : FillState) (c : Cell) (rest : List Cell)
    (hq : s.queue = c :: rest) (hcand : c ∈ candidateCells start) :
    fuelMeasure start (floodStep cells target fillColor c rest s) < fuelMeasure start s := by
  unfold floodStep fuelMeasure
  by_cases hcv : c ∈ s.visited
  · rw [if_pos hcv]
    simp only [hq, List.length_cons]
    omega
  · have hc : c ∈ candidateCells start \ s.visited := Finset.mem_sdiff.mpr ⟨hcand, hcv⟩
    have herase : candidateCells start \ insert c s.visited =
        (candidateCells start \ s.visited).erase c := by
      ext p
      simp only [Finset.mem_sdiff, Finset.mem_erase, Finset.mem_insert, not_or]
      tauto
    have hkey : (candidateCells start \ insert c s.visited).card + 1 =
        (candidateCells start \ s.visited).card := by
      rw [herase, Finset.card_erase_of_mem hc]
      have hpos : 0 < (candidateCells start \ s.visited).card :=
        Finset.card_pos.mpr ⟨c, hc⟩
      omega
    rw [if_neg hcv]
    by_cases hcc : c ∈ cells
    · rw [if_pos hcc]
      by_cases hct : normalizeColor (s.colors c) = target
      · rw [if_pos hct]
        have hlen : ((neighborsOf c).filter
            (fun n => decide (n ∉ insert c s.visited) && inGrid n)).length ≤ 4 := by
          calc ((neighborsOf c).filter _).length ≤ (neighborsOf c).length :=
                List.length_filter_le _ _
            _ = 4 := rfl
        simp only [hq, List.length_cons, List.length_append]
        omega
      · rw [if_neg hct]
        simp only [hq, List.length_cons]
        omega
    · rw [if_neg hcc]
      simp only [hq, List.length_cons]
      omega

theorem floodLoop_spec (cells : List Cell) (init : Cell → Color) (target fillColor : Color)
    (start : Cell) (htarget : target = normalizeColor (init start)) :
    ∀ (fuel : Nat) (s : FillState),
      FillInv cells init target fillColor start s →
      fuelMeasure start s ≤ fuel →
      FillInv cells init target fillColor start (floodLoop cells target fillColor fuel s) ∧
      (floodLoop cells target fillColor fuel s).queue = [] := by
  intro fuel
  induction fuel with
  | zero =>
      intro s hinv hm
      have hq : s.queue = [] := by
        unfold fuelMeasure at hm
        cases hqq : s.queue with
        | nil => rfl
        | cons c rest =>
            rw [hqq] at hm
            simp only [List.length_cons] at hm
            omega
      show FillInv cells init target fillColor start s ∧ s.queue = []
      exact ⟨hinv, hq⟩
  | succ fuel ih =>
      intro s hinv hm
      cases hqq : s.queue with
      | nil =>
          have hred : floodLoop cells target fillColor (fuel + 1) s = s := by
            show (match s.queue with
              | [] => s
              | c :: rest =>
                  floodLoop cells target fillColor fuel (floodStep cells target fillColor c rest s)) = s
            rw [hqq]
          rw [hred]
          exact ⟨hinv, hqq⟩
      | cons c rest =>
          have hred : floodLoop cells target fillColor (fuel + 1) s =
              floodLoop cells target fillColor fuel (floodStep cells target fillColor c rest s) := by
            show (match s.queue with
              | [] => s
              | c :: rest =>
                  floodLoop cells target fillColor fuel (floodStep cells target fillColor c rest s)) = _
            rw [hqq]
          rw [hred]
          have hcand : c ∈ candidateCells start := hinv.queue_cand c (by rw [hqq]; simp)
          have hmlt := floodStep_measure cells target fillColor start s c rest hqq hcand
          exact ih (floodStep cells target fillColor c rest s)
            (floodStep_inv cells init target fillColor start s c rest htarget hinv hqq)
            (by omega)

theorem FillInv.initial (cells : List Cell) (init : Cell → Color) (target fillColor : Color)
    (start : Cell) :
    FillInv cells init target fillColor start ⟨init, ∅, [start], []⟩ := by
  refine ⟨?_, ?_, ?_, ?_, ?_, ?_, ?_, ?_, ?_, ?_⟩
  · intro p
    simp
  · intro p hp
    exact absurd hp.1 (Finset.not_mem_empty p)
  · intro p hp
    rfl
  · simp
  · intro d hd
    cases hd
  · intro q hqm
    rw [List.mem_singleton.mp hqm]
    exact Finset.mem_insert_self _ _
  · exact Or.inr (List.mem_singleton_self _)
  · intro p hp
    exact absurd hp.1 (Finset.not_mem_empty p)
  · intro p hp
    exact absurd hp.1 (Finset.not_mem_empty p)
  · intro q hqm
    exact Or.inl (List.mem_singleton.mp hqm)

theorem initial_measure_le (init : Cell → Color) (start : Cell) :
    fuelMeasure start (⟨init, ∅, [start], []⟩ : FillState) ≤ FUEL := by
  unfold fuelMeasure FUEL
  have hcard : (candidateCells start \ ∅).card ≤ TOTAL_ROWS.toNat * TOTAL_COLUMNS.toNat + 1 := by
    rw [Finset.sdiff_empty]
    unfold candidateCells
    calc (insert start gridCells).card ≤ gridCells.card + 1 := Finset.card_insert_le _ _
      _ = TOTAL_ROWS.toNat * TOTAL_COLUMNS.toNat + 1 := by
          unfold gridCells
          rw [Finset.card_product, Int.card_Icc, Int.card_Icc]
          norm_num
  simp only [List.length_cons, List.length_nil]
  omega

/-! ### C3 -/

/-- **C3 amended** (corrected).  For every store whose active cells all
lie inside the legacy `TOTAL_ROWS × TOTAL_COLUMNS` rectangle that
`fill.js` hard-codes, and every active start cell and fill colour: when
the start's normalised colour equals the normalised fill colour,
`floodFill` returns an empty change list and leaves the store untouched;
otherwise it changes exactly the 4-connected region of active cells whose
initial normalised colour equals the start's (one delta per cell, each
set to the raw fill colour).  The in-rectangle hypothesis is the
amendment: `fill.js` bounds its search by the legacy constants rather
than the active configuration's dimensions, so active cells beyond them
are never filled (see the counterexample). -/
theorem floodFill_characterization (cells : List Cell) (colors : Cell → Color)
    (start : Cell) (fillColor : Color)
    (hstart : start ∈ cells)
    (hrect : ∀ c ∈ cells, inGrid c = true) :
    (normalizeColor (colors start) = normalizeColor fillColor →
      floodFill cells colors start fillColor = ([], colors)) ∧
    (normalizeColor (colors start) ≠ normalizeColor fillColor →
      (∀ p : Cell,
        (∃ d ∈ (floodFill cells colors start fillColor).1, d.cell = p) ↔
          Reaches cells colors (normalizeColor (colors start)) start p) ∧
      ((floodFill cells colors start fillColor).1.map Delta.cell).Nodup ∧
      (∀ d ∈ (floodFill cells colors start fillColor).1,
        d.newColor = fillColor ∧
        d.oldColor = (if colors d.cell = "" then "white" else colors d.cell)) ∧
      (∀ p : Cell, Reaches cells colors (normalizeColor (colors start)) start p →
        (floodFill cells colors start fillColor).2 p = fillColor) ∧
      (∀ p : Cell, ¬ Reaches cells colors (normalizeColor (colors start)) start p →
        (floodFill cells colors start fillColor).2 p = colors p)) := by
  have _hs := hstart
  constructor
  · intro heq
    unfold floodFill
    rw [if_pos heq]
  · intro hne
    have hredF : floodFill cells colors start fillColor =
        ((floodLoop cells (normalizeColor (colors start)) fillColor FUEL
            ⟨colors, ∅, [start], []⟩).changes,
          (floodLoop cells (normalizeColor (colors start)) fillColor FUEL
            ⟨colors, ∅, [start], []⟩).colors) := by
      unfold floodFill
      rw [if_neg hne]
    obtain ⟨hinvF, hqF⟩ := floodLoop_spec cells colors (normalizeColor (colors start))
      fillColor start rfl FUEL ⟨colors, ∅, [start], []⟩
      (FillInv.initial cells colors (normalizeColor (colors start)) fillColor start)
      (initial_measure_le colors start)
    have hreach_changed : ∀ p : Cell,
        Reaches cells colors (normalizeColor (colors start)) start p →
        p ∈ (floodLoop cells (normalizeColor (colors start)) fillColor FUEL
            ⟨colors, ∅, [start], []⟩).visited ∧ p ∈ cells ∧
          normalizeColor (colors p) = normalizeColor (colors start) := by
      intro p hr
      induction hr with
      | base h1 h2 =>
          have hsv : start ∈ (floodLoop cells (normalizeColor (colors start)) fillColor FUEL
              ⟨colors, ∅, [start], []⟩).visited := by
            rcases hinvF.start_mem with h | h
            · exact h
            · rw [hqF] at h; cases h
          exact ⟨hsv, h1, h2⟩
      | step hr hnb hin hcol ih =>
          rcases hinvF.closure _ ih _ hnb (hrect _ hin) with h | h
          · exact ⟨h, hin, hcol⟩
          · rw [hqF] at h; cases h
    have hchg_iff : ∀ p : Cell,
        (∃ d ∈ (floodLoop cells (normalizeColor (colors start)) fillColor FUEL
            ⟨colors, ∅, [start], []⟩).changes, d.cell = p) ↔
          Reaches cells colors (normalizeColor (colors start)) start p := by
      intro p
      rw [hinvF.changes_iff p]
      constructor
      · rintro ⟨hv, hc, ht⟩
        exact hinvF.sound p ⟨hv, hc, ht⟩
      · exact hreach_changed p
    rw [hredF]
    refine ⟨hchg_iff, hinvF.nodup, ?_, ?_, ?_⟩
    · intro d hd
      obtain ⟨hold, hnew⟩ := hinvF.delta_fields d hd
      exact ⟨hnew, hold⟩
    · intro p hp
      exact hinvF.colors_changed p (hreach_changed p hp)
    · intro p hp
      refine hinvF.colors_same p ?_
      rintro ⟨hv, hc, ht⟩
      exact hp (hinvF.sound p ⟨hv, hc, ht⟩)

/-- Witness for C3 (amended): the characterisation evaluated on a
two-pixel store, filling the red pixel `(1,1)` with blue. -/
theorem floodFill_characterization_witness :
    (((1, 1) : Cell) ∈ fillCellsW ∧ (∀ c ∈ fillCellsW, inGrid c = true) ∧
      normalizeColor (fillColorsW (1, 1)) ≠ normalizeColor "blue") ∧
    ((∀ p : Cell,
        (∃ d ∈ (floodFill fillCellsW fillColorsW (1, 1) "blue").1, d.cell = p) ↔
          Reaches fillCellsW fillColorsW (normalizeColor (fillColorsW (1, 1))) (1, 1) p) ∧
      ((floodFill fillCellsW fillColorsW (1, 1) "blue").1.map Delta.cell).Nodup ∧
      (∀ d ∈ (floodFill fillCellsW fillColorsW (1, 1) "blue").1,
        d.newColor = "blue" ∧
        d.oldColor = (if fillColorsW d.cell = "" then "white" else fillColorsW d.cell)) ∧
      (∀ p : Cell, Reaches fillCellsW fillColorsW (normalizeColor (fillColorsW (1, 1))) (1, 1) p →
        (floodFill fillCellsW fillColorsW (1, 1) "blue").2 p = "blue") ∧
      (∀ p : Cell,
        ¬ Reaches fillCellsW fillColorsW (normalizeColor (fillColorsW (1, 1))) (1, 1) p →
        (floodFill fillCellsW fillColorsW (1, 1) "blue").2 p = fillColorsW p)) :=
  ⟨⟨by decide, by decide, by decide⟩,
   (floodFill_characterization fillCellsW fillColorsW (1, 1) "blue" (by decide)
      (by decide)).2 (by decide)⟩

/-- Counterexample for C3 as stated: on a store (from a configuration
taller than the legacy grid) with active background cells at `(138,5)`
and `(139,5)`, cell `(139,5)` is 4-connected-reachable from the start
through active target-coloured cells, yet `floodFill` records no delta
for it and leaves it unchanged — the bounds check `newRow <= TOTAL_ROWS`
uses the legacy constant 138. -/
theorem floodFill_misses_tall_grid_cell :
    Reaches fillCellsTall fillColorsTall (normalizeColor (fillColorsTall (138, 5)))
      (138, 5) (139, 5) ∧
    normalizeColor (fillColorsTall (138, 5)) ≠ normalizeColor "red" ∧
    (floodFill fillCellsTall fillColorsTall (138, 5) "red").1 =
      [⟨138, 5, "white", "red"⟩] ∧
    (¬ ∃ d ∈ (floodFill fillCellsTall fillColorsTall (138, 5) "red").1,
      d.cell = ((139 : Int), (5 : Int))) ∧
    (floodFill fillCellsTall fillColorsTall (138, 5) "red").2 (139, 5) = "" :=
  ⟨Reaches.step (Reaches.base (by decide) rfl) (by decide) (by decide) rfl,
   by decide, by decide, by decide, by decide⟩

/-! ### C10 -/

theorem applyOldList_apply_notMem (l : List Delta) (colors : Cell → Color) (p : Cell)
    (hp : p ∉ l.map Delta.cell) :
    applyOldList l colors p = colors p := by
  induction l generalizing colors with
  | nil => rfl
  | cons d rest ih =>
      simp only [List.map_cons, List.mem_cons, not_or] at hp
      show applyOldList rest (Function.update colors d.cell d.oldColor) p = colors p
      rw [ih _ hp.2, Function.update_apply, if_neg hp.1]

theorem applyOldList_apply_mem (l : List Delta) (colors : Cell → Color) (d : Delta)
    (hd : d ∈ l) (hnodup : (l.map Delta.cell).Nodup) :
    applyOldList l colors d.cell = d.oldColor := by
  induction l generalizing colors with
  | nil => cases hd
  | cons c rest ih =>
      simp only [List.map_cons, List.nodup_cons] at hnodup
      show applyOldList rest (Function.update colors c.cell c.oldColor) d.cell = _
      rcases List.mem_cons.mp hd with heq | hd'
      · subst heq
        rw [applyOldList_apply_notMem _ _ _ hnodup.1, Function.update_same]
      · exact ih _ hd' hnodup.2

theorem normalizeColor_encode (c : Color) :
    normalizeColor (if c = "" then "white" else c) = normalizeColor c := by
  by_cases hc : c = ""
  · rw [if_pos hc, hc]
    rfl
  · rw [if_neg hc]

/-- **C10 amended** (corrected).  For every call to `floodFill`: each cell
appears at most once in the returned delta list; each delta's `oldColor`
is the cell's pre-call colour when that colour is non-empty and the
literal `'white'` when it is the empty string (the DOM's "unset"); and
applying the deltas' `oldColor`s in any order restores the pre-call store
up to colour normalisation — exactly, whenever no changed cell's pre-call
colour was the empty string.  The `''`/`'white'` distinction is the
amendment (see the counterexample). -/
theorem floodFill_deltas_faithful (cells : List Cell) (colors : Cell → Color)
    (start : Cell) (fillColor : Color) :
    ((floodFill cells colors start fillColor).1.map Delta.cell).Nodup ∧
    (∀ d ∈ (floodFill cells colors start fillColor).1,
      d.oldColor = (if colors d.cell = "" then "white" else colors d.cell) ∧
      d.newColor = fillColor) ∧
    (∀ l : List Delta, l.Perm (floodFill cells colors start fillColor).1 →
      (∀ p : Cell,
        normalizeColor (applyOldList l ((floodFill cells colors start fillColor).2) p) =
          normalizeColor (colors p)) ∧
      ((∀ d ∈ (floodFill cells colors start fillColor).1, colors d.cell ≠ "") →
        applyOldList l ((floodFill cells colors start fillColor).2) = colors)) := by
  by_cases heq : normalizeColor (colors start) = normalizeColor fillColor
  · have hred : floodFill cells colors start fillColor = ([], colors) := by
      unfold floodFill
      rw [if_pos heq]
    rw [hred]
    refine ⟨?_, ?_, ?_⟩
    · simp
    · intro d hd
      simp at hd
    · intro l hperm
      have hl : l = [] := List.Perm.eq_nil hperm
      subst hl
      exact ⟨fun p => rfl, fun _ => rfl⟩
  · have hredF : floodFill cells colors start fillColor =
        ((floodLoop cells (normalizeColor (colors start)) fillColor FUEL
            ⟨colors, ∅, [start], []⟩).changes,
          (floodLoop cells (normalizeColor (colors start)) fillColor FUEL
            ⟨colors, ∅, [start], []⟩).colors) := by
      unfold floodFill
      rw [if_neg heq]
    obtain ⟨hinvF, hqF⟩ := floodLoop_spec cells colors (normalizeColor (colors start))
      fillColor start rfl FUEL ⟨colors, ∅, [start], []⟩
      (FillInv.initial cells colors (normalizeColor (colors start)) fillColor start)
      (initial_measure_le colors start)
    rw [hredF]
    dsimp only
    refine ⟨hinvF.nodup, hinvF.delta_fields, ?_⟩
    intro l hperm
    have hlnodup : (l.map Delta.cell).Nodup :=
      ((List.Perm.map Delta.cell hperm).nodup_iff).mpr hinvF.nodup
    constructor
    · intro p
      by_cases hp : ∃ d ∈ (floodLoop cells (normalizeColor (colors start)) fillColor FUEL
          ⟨colors, ∅, [start], []⟩).changes, d.cell = p
      · obtain ⟨d, hd, hcell⟩ := hp
        have hdl : d ∈ l := (hperm.mem_iff).mpr hd
        rw [← hcell, applyOldList_apply_mem l _ d hdl hlnodup,
          (hinvF.delta_fields d hd).1]
        exact normalizeColor_encode (colors d.cell)
      · have hpl : p ∉ l.map Delta.cell := by
          intro hmem
          obtain ⟨d, hdl, hcell⟩ := List.mem_map.mp hmem
          exact hp ⟨d, (hperm.mem_iff).mp hdl, hcell⟩
        rw [applyOldList_apply_notMem l _ p hpl,
          hinvF.colors_same p (fun h => hp ((hinvF.changes_iff p).mpr h))]
    · intro hne'
      funext p
      by_cases hp : ∃ d ∈ (floodLoop cells (normalizeColor (colors start)) fillColor FUEL
          ⟨colors, ∅, [start], []⟩).changes, d.cell = p
      · obtain ⟨d, hd, hcell⟩ := hp
        have hdl : d ∈ l := (hperm.mem_iff).mpr hd
        rw [← hcell, applyOldList_apply_mem l _ d hdl hlnodup,
          (hinvF.delta_fields d hd).1, if_neg (hne' d hd)]
      · have hpl : p ∉ l.map Delta.cell := by
          intro hmem
          obtain ⟨d, hdl, hcell⟩ := List.mem_map.mp hmem
          exact hp ⟨d, (hperm.mem_iff).mp hdl, hcell⟩
        rw [applyOldList_apply_notMem l _ p hpl,
          hinvF.colors_same p (fun h => hp ((hinvF.changes_iff p).mpr h))]

/-- Witness for C10 (amended): evaluated on the two-pixel store, with the
delta list applied back in its own order. -/
theorem floodFill_deltas_faithful_witness :
    ((∀ d ∈ (floodFill fillCellsW fillColorsW (1, 1) "blue").1, fillColorsW d.cell ≠ "") ∧
      (floodFill fillCellsW fillColorsW (1, 1) "blue").1.Perm
        (floodFill fillCellsW fillColorsW (1, 1) "blue").1) ∧
    ((floodFill fillCellsW fillColorsW (1, 1) "blue").1.map Delta.cell).Nodup ∧
    applyOldList (floodFill fillCellsW fillColorsW (1, 1) "blue").1
      ((floodFill fillCellsW fillColorsW (1, 1) "blue").2) = fillColorsW :=
  have h := floodFill_deltas_faithful fillCellsW fillColorsW (1, 1) "blue"
  ⟨⟨by decide, List.Perm.refl _⟩, h.1,
   (h.2.2 (floodFill fillCellsW fillColorsW (1, 1) "blue").1 (List.Perm.refl _)).2 (by decide)⟩

/-- Concrete single-pixel background store for the C10 counterexample. -/
def bgCells : List Cell := [(1, 1)]

/-- All `bgCells` pixels unset. -/
def bgColors : Cell → Color := fun _ => ""

/-- Counterexample for C10 as stated: filling an unset (empty-string)
pixel records `oldColor = 'white'`, not the cell's actual pre-call colour
`''`; applying the delta's `oldColor` back yields `'white'`, so the
pre-call store is not restored bit-for-bit (only up to normalisation). -/
theorem floodFill_oldColor_claim_false :
    (floodFill bgCells bgColors (1, 1) "red").1 = [⟨1, 1, "white", "red"⟩] ∧
    bgColors ((1 : Int), (1 : Int)) = "" ∧
    ("white" : Color) ≠ "" ∧
    applyOldList (floodFill bgCells bgColors (1, 1) "red").1
      ((floodFill bgCells bgColors (1, 1) "red").2) (1, 1) = "white" :=
  ⟨by decide, rfl, by decide, by decide⟩

end WoollySheep
